import Mathlib

/-!
# Plummer test-particle integrator: embedding of `plummer.cpp`

The C++ type `double` is modelled by an arbitrary field `α` (exact arithmetic);
the libm functions `sqrt`, `cos`, `sin` are passed to the definitions as
parameters, so every definition is computable and can be run over `ℚ`.
Theorems that need the meaning of these functions instantiate `α := ℝ` with
`Real.sqrt`, `Real.cos`, `Real.sin`.

Division is the field division. The C++ code yields a non-finite value when
the divisor `d * d * d` is zero; the model yields `0` there.

Where rounding, underflow or `NaN` decide what the program does, the same code is
embedded a second time over an arbitrary arithmetic `A : Arith α` (namespace
`Arith`): `Arith.exact` is the exact arithmetic of an ordered field, for which the
second embedding gives back the first, and `F64.arith` is IEEE 754 binary64 with
round to nearest, ties to even, in which the program is compiled. A binary64
number is a sign and a natural multiple of `2^(-1074)`, an infinity or `NaN`.

The `for` loop of `evolve` need not terminate (a non-positive `time_step`), so
it is modelled with a fuel argument that bounds the number of evaluations of
the loop condition; running out of fuel is `none`.

The class `ConfigReader` of `config-reader.h` is modelled over the lines that
`std::getline` delivers; `std::string` is `String`, index arithmetic is done in
the 64-bit `size_t`, and a call that may end the process returns an `Outcome`.
-/

namespace PlummerModel

variable {α : Type}

/-! ## Data model (plummer.cpp, lines 8-39, 91-96) -/

/-- The constant `G` of plummer.cpp line 8. -/
def G [One α] : α := 1

/-- The struct `Coord`: three doubles, read as `(x, y, z)` or as `(r, phi, theta)`. -/
structure Coord (α : Type) where
  x : α
  y : α
  z : α
deriving DecidableEq, Repr

/-- The union member `r` shares storage with `x`. -/
def Coord.r (c : Coord α) : α := c.x

/-- The union member `phi` shares storage with `y`. -/
def Coord.phi (c : Coord α) : α := c.y

/-- The union member `theta` shares storage with `z`. -/
def Coord.theta (c : Coord α) : α := c.z

/-- The struct `Plummer`: the test particle and the cluster it moves in. -/
structure Plummer (α : Type) where
  v : Coord α
  p : Coord α
  M : α
  a : α
  t : α
deriving DecidableEq, Repr

/-- The struct `Args`: the run parameters. -/
structure Args (α : Type) where
  end_time : α
  time_step : α
  out_interval : α
  file_name : String

/-- One line of the output file, `sys.t sys.p sys.v` (operator `<<` of `Plummer`, lines 82-85):
the seven numbers in the order they are written. -/
structure Snapshot (α : Type) where
  t : α
  p : Coord α
  v : Coord α
deriving DecidableEq, Repr

/-- What `out_file << sys` appends to the file. -/
def Plummer.snapshot (sys : Plummer α) : Snapshot α :=
  { t := sys.t, p := sys.p, v := sys.v }

/-! ## Acceleration and integrator step (plummer.cpp, lines 46-73) -/

section FieldOps

variable [Field α]

/-- The method `Plummer::calc_acceleration` (lines 66-73). -/
def Plummer.calc_acceleration (sqrt : α → α) (sys : Plummer α) : Coord α :=
  let d := sqrt (sys.p.x * sys.p.x + sys.p.y * sys.p.y + sys.p.z * sys.p.z + sys.a * sys.a)
  let x := -G * sys.M * sys.p.x / (d * d * d)
  let y := -G * sys.M * sys.p.y / (d * d * d)
  let z := -G * sys.M * sys.p.z / (d * d * d)
  Coord.mk x y z

/-- The method `Plummer::advance_coordinates` (lines 46-60); the three blocks of
in-place updates become three successive states. -/
def Plummer.advance_coordinates (sqrt : α → α) (sys : Plummer α) (dt : α) : Plummer α :=
  let hdt := 0.5 * dt
  let sys1 : Plummer α :=
    { sys with p := Coord.mk (sys.p.x + sys.v.x * hdt) (sys.p.y + sys.v.y * hdt)
                      (sys.p.z + sys.v.z * hdt) }
  let a := sys1.calc_acceleration sqrt
  let sys2 : Plummer α :=
    { sys1 with v := Coord.mk (sys1.v.x + a.x * dt) (sys1.v.y + a.y * dt) (sys1.v.z + a.z * dt) }
  let sys3 : Plummer α :=
    { sys2 with p := Coord.mk (sys2.p.x + sys2.v.x * hdt) (sys2.p.y + sys2.v.y * hdt)
                      (sys2.p.z + sys2.v.z * hdt) }
  sys3

/-! ## Coordinate conversion (plummer.cpp, lines 104-119) -/

/-- The function `to_cartesian` (lines 104-119). -/
def to_cartesian (cos sin : α → α) (p v : Coord α) : Coord α × Coord α :=
  let cos_theta := cos p.theta
  let sin_theta := sin p.theta
  let cos_phi := cos p.phi
  let sin_phi := sin p.phi
  let x := p.r * cos_theta * sin_phi
  let y := p.r * sin_theta * sin_phi
  let z := p.r * cos_phi
  let vx := cos_theta * sin_phi * v.r - p.r * sin_theta * sin_phi * v.theta
    + p.r * cos_theta * cos_phi * v.phi
  let vy := sin_theta * sin_phi * v.r + p.r * sin_phi * cos_theta * v.theta
    + p.r * sin_theta * cos_phi * v.phi
  let vz := cos_phi * v.r - p.r * sin_phi * v.phi
  (Coord.mk x y z, Coord.mk vx vy vz)

end FieldOps

/-! ## Driver (plummer.cpp, lines 125-143) -/

section Driver

variable [LinearOrderedField α]

/-- The variables the `for` loop of `evolve` works on: the system, the cursor
`output_time` and the lines written to `out_file` so far. -/
structure LoopState (α : Type) where
  sys : Plummer α
  output_time : α
  out_file : List (Snapshot α)

/-- The `if` of lines 133-136: write the system and advance the cursor when it is time. -/
def write_if_due (args : Args α) (s : LoopState α) : LoopState α :=
  if s.sys.t ≥ s.output_time then
    { s with out_file := s.out_file ++ [s.sys.snapshot],
             output_time := s.output_time + args.out_interval }
  else s

/-- One pass through the loop of lines 131-138: the body, then the increment
`sys.t += args.time_step`. -/
def loop_iteration (sqrt : α → α) (args : Args α) (s : LoopState α) : LoopState α :=
  let s1 := write_if_due args s
  let sys1 := s1.sys.advance_coordinates sqrt args.time_step
  { s1 with sys := { sys1 with t := sys1.t + args.time_step } }

/-- The `for` loop of lines 131-138. Each evaluation of the condition
`sys.t < args.end_time` uses one unit of fuel. -/
def evolve_loop (sqrt : α → α) (args : Args α) : Nat → LoopState α → Option (LoopState α)
  | 0, _ => none
  | fuel + 1, s =>
    if s.sys.t < args.end_time then
      evolve_loop sqrt args fuel (loop_iteration sqrt args s)
    else some s

/-- What a call of `evolve` leaves behind: the system (passed by reference),
the lines of the output file and the lines printed to `std::cout`. -/
structure Run (α : Type) where
  sys : Plummer α
  out_file : List (Snapshot α)
  stdout : List String

/-- The function `evolve` (lines 125-143). `is_open` is the result of
`out_file.is_open()` after the constructor tried to open `args.file_name`. -/
def evolve (sqrt : α → α) (is_open : Bool) (fuel : Nat) (sys : Plummer α) (args : Args α) :
    Option (Run α) :=
  if is_open then
    (evolve_loop sqrt args fuel { sys := sys, output_time := 0, out_file := [] }).map
      fun s => { sys := s.sys, out_file := s.out_file, stdout := [] }
  else
    some { sys := sys, out_file := [], stdout := ["fail to open the output file!\n"] }

/-- The times of the snapshots a run wrote, in file order. -/
def Run.times (r : Run α) : List α := r.out_file.map Snapshot.t

end Driver

/-! ## The driver loop seen through its clock -/

/-- The loop of `evolve` reduced to the time `sys.t`, the cursor `output_time` and the
times of the snapshots written so far; `evolve_loop_cadence` shows that the loop
projects onto it. -/
def cadence [LinearOrderedField α] (args : Args α) :
    Nat → α → α → List α → Option (α × α × List α)
  | 0, _, _, _ => none
  | fuel + 1, t, output_time, times =>
    if t < args.end_time then
      if t ≥ output_time then
        cadence args fuel (t + args.time_step) (output_time + args.out_interval) (times ++ [t])
      else
        cadence args fuel (t + args.time_step) output_time times
    else some (t, output_time, times)

/-! ## Definitions that follow the specification's wording -/

/-- The velocity with components `(v_r, v_phi, v_theta)` in the local orthonormal
spherical basis at the position `p = (r, phi, theta)`, as the specification words it:
`v_r * r_hat + v_phi * phi_hat + v_theta * theta_hat` with
`r_hat = (cos theta sin phi, sin theta sin phi, cos phi)`,
`phi_hat = (cos theta cos phi, sin theta cos phi, -sin phi)`,
`theta_hat = (-sin theta, cos theta, 0)`. -/
def unit_basis_velocity [Field α] (cos sin : α → α) (p v : Coord α) : Coord α :=
  Coord.mk
    (v.r * (cos p.theta * sin p.phi) + v.phi * (cos p.theta * cos p.phi)
      + v.theta * (-sin p.theta))
    (v.r * (sin p.theta * sin p.phi) + v.phi * (sin p.theta * cos p.phi)
      + v.theta * cos p.theta)
    (v.r * cos p.phi + v.phi * (-sin p.phi) + v.theta * 0)

/-! ## Configuration reader (config-reader.h, lines 46-105) -/

/-- How a function that may end the process comes back: with a value, with the
process ended by `exit (status)` after `stdout` was printed, or with a C++
exception thrown. -/
inductive Outcome (T : Type) where
  | returned (value : T)
  | exited (status : Int) (stdout : String)
  | thrown (what : String)
deriving DecidableEq, Repr

/-- The C function `isspace` in the default locale: space, `\t`, `\n`, `\v`, `\f`, `\r`. -/
def isspace (c : Char) : Bool :=
  c == ' ' || c == Char.ofNat 9 || c == Char.ofNat 10 || c == Char.ofNat 11
    || c == Char.ofNat 12 || c == Char.ofNat 13

/-- The constant `std::string::npos`, the largest value of the 64-bit `size_t`. -/
def npos : Nat := 2 ^ 64 - 1

/-- The method `std::string::find (char)`: the index of the first occurrence, `npos` if none. -/
def string_find (line : List Char) (c : Char) : Nat :=
  if c ∈ line then line.indexOf c else npos

/-- The method `std::string::substr (pos, n)`; it throws `std::out_of_range`
(here `none`) when `pos` is past the end. -/
def string_substr (line : List Char) (pos n : Nat) : Option (List Char) :=
  if pos > line.length then none else some ((line.drop pos).take n)

/-- The member `map_`, a `std::unordered_map` from strings to strings. -/
abbrev ConfigMap : Type := String → Option String

/-- The assignment `map_[key] = val`. -/
def ConfigMap.assign (m : ConfigMap) (key val : String) : ConfigMap :=
  fun k => if k = key then some val else m k

/-- The class `ConfigReader`: its only data member is `map_`. -/
structure ConfigReader where
  map_ : ConfigMap

/-- The body of the `while (std::getline (file, line))` loop of the constructor
(lines 53-61) for one line; `none` is `std::out_of_range` from `substr`.
The sum `split + 1` is computed in `size_t`. -/
def ConfigReader.read_line (divider commenter : Char) (m : ConfigMap) (line : String) :
    Option ConfigMap :=
  let line := line.data.filter (fun c => !isspace c)
  if line.headD (Char.ofNat 0) == commenter || line.isEmpty then
    some m
  else
    let split := string_find line divider
    match string_substr line 0 split, string_substr line ((split + 1) % 2 ^ 64) npos with
    | some key, some val => some (m.assign (String.mk key) (String.mk val))
    | _, _ => none

/-- The `while` loop of the constructor over the lines `std::getline` delivers. -/
def ConfigReader.read_lines (divider commenter : Char) :
    ConfigMap → List String → Option ConfigMap
  | m, [] => some m
  | m, line :: rest =>
    match ConfigReader.read_line divider commenter m line with
    | some m1 => ConfigReader.read_lines divider commenter m1 rest
    | none => none

/-- The constructor `ConfigReader (file_name, divider, commenter)` (lines 48-68).
`file` is what opening `file_name` gives: `none` when it cannot be opened,
otherwise its lines. The defaults of the source are `divider = '='`, `commenter = '#'`. -/
def ConfigReader.new (file : Option (List String)) (file_name : String)
    (divider commenter : Char) : Outcome ConfigReader :=
  match file with
  | some lines =>
    match ConfigReader.read_lines divider commenter (fun _ => none) lines with
    | some m => Outcome.returned { map_ := m }
    | none => Outcome.thrown "std::out_of_range"
  | none =>
    Outcome.exited 0 ("Cannot open the configure file: " ++ file_name ++ "\r\n")

/-- The method `ConfigReader::get<T>` (lines 73-85). `extract` is the stream
extraction `ss >> value` of a `T` from the stored text: what `value` holds
afterwards, whether or not the extraction succeeded (the code does not look at
the state of the stream). -/
def ConfigReader.get {T : Type} (extract : String → T) (c : ConfigReader) (key : String) :
    Outcome T :=
  let iskey := (c.map_ key).isSome
  if iskey then
    match c.map_ key with
    | some text => Outcome.returned (extract text)
    | none => Outcome.returned (extract "")
  else
    Outcome.exited 0 "Invalid key for configure file!\n"

/-- One line as the specification words it: whitespace is removed; a line that is
then empty or begins with the comment character is skipped; every other line
stores key = the text before the first divider and value = the text after that
first divider, replacing what the key had. -/
def spec_read_line (divider commenter : Char) (m : ConfigMap) (line : String) : ConfigMap :=
  let stripped := line.data.filter (fun c => !isspace c)
  if stripped.isEmpty || stripped.head? == some commenter then m
  else
    let key := stripped.takeWhile (fun c => c != divider)
    let val := (stripped.dropWhile (fun c => c != divider)).drop 1
    fun k => if k = String.mk key then some (String.mk val) else m k

/-- The key-to-value map as the specification words it: the lines are taken in
order, so a key that occurs on several lines keeps the value of the last one. -/
def spec_config_map (divider commenter : Char) (lines : List String) : ConfigMap :=
  lines.foldl (spec_read_line divider commenter) (fun _ => none)

/-- A line that, once stripped of whitespace, is empty, begins with the comment
character or contains the divider. -/
def well_formed_line (divider commenter : Char) (line : String) : Prop :=
  (line.data.filter (fun c => !isspace c)) = [] ∨
  (line.data.filter (fun c => !isspace c)).head? = some commenter ∨
  divider ∈ line.data.filter (fun c => !isspace c)

instance (divider commenter : Char) (line : String) :
    Decidable (well_formed_line divider commenter line) := by
  unfold well_formed_line
  exact inferInstance

/-! ## Quantities the claims speak of -/

/-- The local `d` of `calc_acceleration` (line 67), the softened radius. -/
def Plummer.softened_radius [Field α] (sqrt : α → α) (sys : Plummer α) : α :=
  sqrt (sys.p.x * sys.p.x + sys.p.y * sys.p.y + sys.p.z * sys.p.z + sys.a * sys.a)

/-- The state after the first drift of `advance_coordinates` (lines 47-50), on which
`calc_acceleration` is called (line 52). -/
def Plummer.half_drift [Field α] (sys : Plummer α) (dt : α) : Plummer α :=
  let hdt := 0.5 * dt
  { sys with p := Coord.mk (sys.p.x + sys.v.x * hdt) (sys.p.y + sys.v.y * hdt)
                    (sys.p.z + sys.v.z * hdt) }

/-- The cross product of two vectors. -/
def Coord.cross [Field α] (p v : Coord α) : Coord α :=
  Coord.mk (p.y * v.z - p.z * v.y) (p.z * v.x - p.x * v.z) (p.x * v.y - p.y * v.x)

/-- The specific angular momentum `position × velocity` of the test particle. -/
def Plummer.angular_momentum [Field α] (sys : Plummer α) : Coord α :=
  Coord.cross sys.p sys.v

/-- The state with the velocity negated. -/
def Plummer.reverse [Field α] (sys : Plummer α) : Plummer α :=
  { sys with v := Coord.mk (-sys.v.x) (-sys.v.y) (-sys.v.z) }

/-- The specific orbital energy `½ |v|^2 - G M / sqrt (|p|^2 + a^2)` of the test particle,
as the specification words it. -/
def Plummer.energy [Field α] (sqrt : α → α) (sys : Plummer α) : α :=
  1 / 2 * (sys.v.x ^ 2 + sys.v.y ^ 2 + sys.v.z ^ 2)
    - G * sys.M / sqrt (sys.p.x ^ 2 + sys.p.y ^ 2 + sys.p.z ^ 2 + sys.a ^ 2)

/-! ## The code over the arithmetic of `double`

The definitions above compute in an exact field. The definitions of this part are
the same code over an arbitrary arithmetic `A : Arith α`, whose operations may
round, overflow or give `NaN`; `Arith.exact` is the exact arithmetic of a field and
`F64.arith` is IEEE 754 binary64. -/

/-- The operations and constants of the type `double` that plummer.cpp uses. -/
structure Arith (α : Type) where
  zero : α
  one : α
  half : α
  neg : α → α
  add : α → α → α
  mul : α → α → α
  div : α → α → α
  sqrt : α → α
  lt : α → α → Bool
  ge : α → α → Bool

namespace Arith

/-- The constant `G` of plummer.cpp line 8, `constexpr double G = 1`. -/
def G (A : Arith α) : α := A.one

/-- The local `d` of `calc_acceleration` (line 67):
`sqrt (p.x * p.x + p.y * p.y + p.z * p.z + a * a)`, the sum taken from the left. -/
def softened_radius (A : Arith α) (sys : Plummer α) : α :=
  A.sqrt (A.add (A.add (A.add (A.mul sys.p.x sys.p.x) (A.mul sys.p.y sys.p.y))
    (A.mul sys.p.z sys.p.z)) (A.mul sys.a sys.a))

/-- The method `Plummer::calc_acceleration` (lines 66-73): each component is
`-G * M * p.x / (d * d * d)`, products taken from the left. -/
def calc_acceleration (A : Arith α) (sys : Plummer α) : Coord α :=
  let d := A.softened_radius sys
  let x := A.div (A.mul (A.mul (A.neg A.G) sys.M) sys.p.x) (A.mul (A.mul d d) d)
  let y := A.div (A.mul (A.mul (A.neg A.G) sys.M) sys.p.y) (A.mul (A.mul d d) d)
  let z := A.div (A.mul (A.mul (A.neg A.G) sys.M) sys.p.z) (A.mul (A.mul d d) d)
  Coord.mk x y z

/-- The method `Plummer::advance_coordinates` (lines 46-60). -/
def advance_coordinates (A : Arith α) (sys : Plummer α) (dt : α) : Plummer α :=
  let hdt := A.mul A.half dt
  let sys1 : Plummer α :=
    { sys with p := Coord.mk (A.add sys.p.x (A.mul sys.v.x hdt))
                      (A.add sys.p.y (A.mul sys.v.y hdt)) (A.add sys.p.z (A.mul sys.v.z hdt)) }
  let a := A.calc_acceleration sys1
  let sys2 : Plummer α :=
    { sys1 with v := Coord.mk (A.add sys1.v.x (A.mul a.x dt)) (A.add sys1.v.y (A.mul a.y dt))
                      (A.add sys1.v.z (A.mul a.z dt)) }
  let sys3 : Plummer α :=
    { sys2 with p := Coord.mk (A.add sys2.p.x (A.mul sys2.v.x hdt))
                      (A.add sys2.p.y (A.mul sys2.v.y hdt)) (A.add sys2.p.z (A.mul sys2.v.z hdt)) }
  sys3

/-- The `if` of lines 133-136. -/
def write_if_due (A : Arith α) (args : Args α) (s : LoopState α) : LoopState α :=
  if A.ge s.sys.t s.output_time = true then
    { s with out_file := s.out_file ++ [s.sys.snapshot],
             output_time := A.add s.output_time args.out_interval }
  else s

/-- One pass through the loop of lines 131-138: the body, then `sys.t += args.time_step`. -/
def loop_iteration (A : Arith α) (args : Args α) (s : LoopState α) : LoopState α :=
  let s1 := A.write_if_due args s
  let sys1 := A.advance_coordinates s1.sys args.time_step
  { s1 with sys := { sys1 with t := A.add sys1.t args.time_step } }

/-- The `for` loop of lines 131-138; each evaluation of `sys.t < args.end_time` uses one
unit of fuel. -/
def evolve_loop (A : Arith α) (args : Args α) : Nat → LoopState α → Option (LoopState α)
  | 0, _ => none
  | fuel + 1, s =>
    if A.lt s.sys.t args.end_time = true then
      evolve_loop A args fuel (A.loop_iteration args s)
    else some s

/-- The function `evolve` (lines 125-143); `double output_time = 0`. -/
def evolve (A : Arith α) (is_open : Bool) (fuel : Nat) (sys : Plummer α) (args : Args α) :
    Option (Run α) :=
  if is_open then
    (A.evolve_loop args fuel { sys := sys, output_time := A.zero, out_file := [] }).map
      fun s => { sys := s.sys, out_file := s.out_file, stdout := [] }
  else
    some { sys := sys, out_file := [], stdout := ["fail to open the output file!\n"] }

/-- The cross product `p × v` of two vectors, computed in the arithmetic `A`. -/
def cross (A : Arith α) (p v : Coord α) : Coord α :=
  Coord.mk (A.add (A.mul p.y v.z) (A.neg (A.mul p.z v.y)))
    (A.add (A.mul p.z v.x) (A.neg (A.mul p.x v.z)))
    (A.add (A.mul p.x v.y) (A.neg (A.mul p.y v.x)))

/-- The exact arithmetic of an ordered field, with a given square root. -/
def exact [LinearOrderedField α] (sqrt : α → α) : Arith α where
  zero := 0
  one := 1
  half := 0.5
  neg := fun x => -x
  add := fun x y => x + y
  mul := fun x y => x * y
  div := fun x y => x / y
  sqrt := sqrt
  lt := fun x y => decide (x < y)
  ge := fun x y => decide (x ≥ y)

end Arith

/-! ## The type `double`: IEEE 754 binary64, round to nearest, ties to even -/

/-- A value of the type `double`. A finite value is `± k * 2^(-1074)` for a natural
number `k` (every finite binary64 number is such a multiple: `2^(-1074)` is the
smallest subnormal); the others are `± infinity` and `NaN`. -/
inductive F64 where
  | fin (neg : Bool) (k : Nat)
  | inf (neg : Bool)
  | nan
deriving DecidableEq, Repr

namespace F64

/-- Round the fraction `n / d` to the nearest integer, ties to the even one. -/
def round_half_even (n d : Nat) : Nat :=
  let q := n / d
  let r := n % d
  if 2 * r < d then q
  else if d < 2 * r then q + 1
  else if q % 2 = 0 then q else q + 1

/-- Bisection for `log2`: from an exponent `e` with `2^e ≤ n`, add the steps
`2^(i-1), ..., 2, 1` to `e`, each one if `2^e ≤ n` stays true. -/
def log2_search (n : Nat) : Nat → Nat → Nat
  | 0, e => e
  | i + 1, e => if 2 ^ (e + 2 ^ i) ≤ n then log2_search n i (e + 2 ^ i) else log2_search n i e

/-- The position of the leading bit, `⌊log2 n⌋`, for `1 ≤ n < 2^4096`. -/
def log2 (n : Nat) : Nat := log2_search n 12 0

/-- Round the magnitude `n / d` (in units of `2^(-1074)`, `d > 0`) to binary64: 53
significant bits, gradual underflow (below `2^53` units every integer is
representable), overflow to infinity from `2^1024 = 2^2098` units. -/
def round (neg : Bool) (n d : Nat) : F64 :=
  let q := n / d
  if q < 2 ^ 53 then fin neg (round_half_even n d)
  else
    let j := log2 q - 52
    let k := round_half_even n (d * 2 ^ j) * 2 ^ j
    if k < 2 ^ 2098 then fin neg k else inf neg

/-- The double nearest to the fraction `± n / d`, as a decimal literal or a parsed
number gives it. -/
def ofFrac (neg : Bool) (n d : Nat) : F64 := round neg (n * 2 ^ 1074) d

/-- Unary minus. -/
def neg : F64 → F64
  | fin s k => fin (!s) k
  | inf s => inf (!s)
  | nan => nan

/-- Addition. -/
def add : F64 → F64 → F64
  | fin s1 k1, fin s2 k2 =>
    if s1 = s2 then round s1 (k1 + k2) 1
    else if k1 = k2 then fin false 0
    else if k2 < k1 then round s1 (k1 - k2) 1
    else round s2 (k2 - k1) 1
  | fin _ _, inf s => inf s
  | inf s, fin _ _ => inf s
  | inf s1, inf s2 => if s1 = s2 then inf s1 else nan
  | _, _ => nan

/-- Multiplication. -/
def mul : F64 → F64 → F64
  | fin s1 k1, fin s2 k2 => round (xor s1 s2) (k1 * k2) (2 ^ 1074)
  | fin s1 k1, inf s2 => if k1 = 0 then nan else inf (xor s1 s2)
  | inf s1, fin s2 k2 => if k2 = 0 then nan else inf (xor s1 s2)
  | inf s1, inf s2 => inf (xor s1 s2)
  | _, _ => nan

/-- Division. -/
def div : F64 → F64 → F64
  | fin s1 k1, fin s2 k2 =>
    if k2 = 0 then (if k1 = 0 then nan else inf (xor s1 s2))
    else round (xor s1 s2) (k1 * 2 ^ 1074) k2
  | fin s1 _, inf s2 => fin (xor s1 s2) 0
  | inf s1, fin s2 _ => inf (xor s1 s2)
  | _, _ => nan

/-- The integer square root, by bisection on the bits from `2^i` down. -/
def isqrt_bits (N : Nat) : Nat → Nat → Nat
  | 0, r => r
  | i + 1, r => if (r + 2 ^ i) * (r + 2 ^ i) ≤ N then isqrt_bits N i (r + 2 ^ i)
    else isqrt_bits N i r

/-- The integer square root `⌊√N⌋`. -/
def isqrt (N : Nat) : Nat := isqrt_bits N (log2 N / 2 + 1) 0

/-- The correctly rounded square root of the magnitude `k` units: the exact root is
`√(k * 2^1074)` units. -/
def sqrt_round (k : Nat) : F64 :=
  let N := k * 2 ^ 1074
  let q := isqrt N
  if q < 2 ^ 53 then
    (if 4 * N < (2 * q + 1) * (2 * q + 1) then fin false q else fin false (q + 1))
  else
    let j := log2 q - 52
    let t := q / 2 ^ j
    let h := (2 * t + 1) * (2 * t + 1) * 4 ^ (j - 1)
    let t1 := if N < h then t else if h < N then t + 1 else if t % 2 = 0 then t else t + 1
    fin false (t1 * 2 ^ j)

/-- The function `sqrt`. -/
def sqrt : F64 → F64
  | fin s k => if k = 0 then fin s 0 else if s then nan else sqrt_round k
  | inf s => if s then nan else inf false
  | nan => nan

/-- The comparison `x < y`; false when an operand is `NaN`. -/
def lt : F64 → F64 → Bool
  | fin s1 k1, fin s2 k2 =>
    match s1, s2 with
    | false, false => k1 < k2
    | true, true => k2 < k1
    | true, false => !(k1 = 0 && k2 = 0)
    | false, true => false
  | fin _ _, inf s => !s
  | inf s, fin _ _ => s
  | inf s1, inf s2 => s1 && !s2
  | _, _ => false

/-- The comparison `x >= y`; false when an operand is `NaN`. -/
def ge : F64 → F64 → Bool
  | nan, _ => false
  | _, nan => false
  | x, y => !(lt x y)

end F64

/-- The double `x` is at least `m * 2^(-1074)` and not `NaN`: it is `+∞`, or the finite
double `+ k * 2^(-1074)` with `m ≤ k` (and `k < 2^2098`, as for every finite double). -/
def F64.atLeast (m : Nat) : F64 → Prop
  | F64.fin false k => m ≤ k ∧ k < 2 ^ 2098
  | F64.inf false => True
  | _ => False

/-- The magnitude of the double `x` is at least `m * 2^(-1074)`: `x` is infinite, or the
finite double `± k * 2^(-1074)` with `m ≤ k`. -/
def F64.magAtLeast (m : Nat) : F64 → Prop
  | F64.fin _ k => m ≤ k
  | F64.inf _ => True
  | F64.nan => False

/-- IEEE 754 binary64 arithmetic. -/
def F64.arith : Arith F64 where
  zero := F64.fin false 0
  one := F64.ofFrac false 1 1
  half := F64.ofFrac false 1 2
  neg := F64.neg
  add := F64.add
  mul := F64.mul
  div := F64.div
  sqrt := F64.sqrt
  lt := F64.lt
  ge := F64.ge

/-! ## Integrator step and acceleration: the formulas -/

/-- Claim C1: for every state and every `dt`, `advance_coordinates` yields the
drift-kick-drift result. With `p_half = p + v * (dt / 2)` and `acc` the
acceleration evaluated at the half-drifted position (same `M` and `a`), the new
velocity is `v_new = v + acc * dt` and the new position is
`p_half + v_new * (dt / 2)`. -/
theorem advance_coordinates_drift_kick_drift [LinearOrderedField α]
    (sqrt : α → α) (sys : Plummer α) (dt : α) :
    let p_half : Coord α :=
      Coord.mk (sys.p.x + sys.v.x * (dt / 2)) (sys.p.y + sys.v.y * (dt / 2))
        (sys.p.z + sys.v.z * (dt / 2))
    let acc : Coord α :=
      Plummer.calc_acceleration sqrt { v := sys.v, p := p_half, M := sys.M, a := sys.a, t := sys.t }
    let v_new : Coord α :=
      Coord.mk (sys.v.x + acc.x * dt) (sys.v.y + acc.y * dt) (sys.v.z + acc.z * dt)
    (sys.advance_coordinates sqrt dt).v = v_new ∧
    (sys.advance_coordinates sqrt dt).p =
      Coord.mk (p_half.x + v_new.x * (dt / 2)) (p_half.y + v_new.y * (dt / 2))
        (p_half.z + v_new.z * (dt / 2)) := by
  have h : (0.5 : α) * dt = dt / 2 := by norm_num; ring
  refine ⟨?_, ?_⟩
  · simp only [Plummer.advance_coordinates, h]
  · simp only [Plummer.advance_coordinates, h]

/-- Claim C2: for every position `(x, y, z)` and parameters `M`, `a`,
`calc_acceleration` returns `(-G*M*x/d^3, -G*M*y/d^3, -G*M*z/d^3)` with
`d = sqrt (x^2 + y^2 + z^2 + a^2)`, and `G = 1`. -/
theorem calc_acceleration_formula [Field α] (sqrt : α → α) (v : Coord α) (x y z M a t : α) :
    let d := sqrt (x ^ 2 + y ^ 2 + z ^ 2 + a ^ 2)
    Plummer.calc_acceleration sqrt { v := v, p := Coord.mk x y z, M := M, a := a, t := t } =
      Coord.mk (-G * M * x / d ^ 3) (-G * M * y / d ^ 3) (-G * M * z / d ^ 3) ∧
    (G : α) = 1 := by
  refine ⟨?_, rfl⟩
  simp only [Plummer.calc_acceleration, pow_two, pow_succ, pow_zero, one_mul]

/-! ## Coordinate conversion -/

/-- Claim C3: for every spherical position `(r, phi, theta)` the position returned by
`to_cartesian` is `x = r cos theta sin phi`, `y = r sin theta sin phi`, `z = r cos phi`,
whatever the velocity argument is. -/
theorem to_cartesian_position [Field α] (cos sin : α → α) (r phi theta : α) (v w : Coord α) :
    (to_cartesian cos sin (Coord.mk r phi theta) v).1 =
      Coord.mk (r * cos theta * sin phi) (r * sin theta * sin phi) (r * cos phi) ∧
    (to_cartesian cos sin (Coord.mk r phi theta) v).1 =
      (to_cartesian cos sin (Coord.mk r phi theta) w).1 :=
  ⟨rfl, rfl⟩

/-- Claim C4: over the reals, the velocity returned by `to_cartesian` is the
Jacobian of the position mapping `(r, phi, theta) ↦ (x, y, z)` at `(r, phi, theta)`
applied to `(v_r, v_phi, v_theta)`: each position component has partial
derivatives with respect to `r`, `phi` and `theta` there, and the matching
velocity component is `(d/dr) * v_r + (d/dphi) * v_phi + (d/dtheta) * v_theta`. -/
theorem to_cartesian_velocity_jacobian (r phi theta v_r v_phi v_theta : ℝ) (w : Coord ℝ) :
    let pos : ℝ → ℝ → ℝ → Coord ℝ := fun r phi theta =>
      (to_cartesian Real.cos Real.sin (Coord.mk r phi theta) w).1
    let vel : Coord ℝ :=
      (to_cartesian Real.cos Real.sin (Coord.mk r phi theta) (Coord.mk v_r v_phi v_theta)).2
    (∃ dr dphi dtheta : ℝ,
      HasDerivAt (fun s => (pos s phi theta).x) dr r ∧
      HasDerivAt (fun s => (pos r s theta).x) dphi phi ∧
      HasDerivAt (fun s => (pos r phi s).x) dtheta theta ∧
      vel.x = dr * v_r + dphi * v_phi + dtheta * v_theta) ∧
    (∃ dr dphi dtheta : ℝ,
      HasDerivAt (fun s => (pos s phi theta).y) dr r ∧
      HasDerivAt (fun s => (pos r s theta).y) dphi phi ∧
      HasDerivAt (fun s => (pos r phi s).y) dtheta theta ∧
      vel.y = dr * v_r + dphi * v_phi + dtheta * v_theta) ∧
    (∃ dr dphi dtheta : ℝ,
      HasDerivAt (fun s => (pos s phi theta).z) dr r ∧
      HasDerivAt (fun s => (pos r s theta).z) dphi phi ∧
      HasDerivAt (fun s => (pos r phi s).z) dtheta theta ∧
      vel.z = dr * v_r + dphi * v_phi + dtheta * v_theta) := by
  intro pos vel
  refine ⟨⟨Real.cos theta * Real.sin phi, r * Real.cos theta * Real.cos phi,
      r * (-Real.sin theta) * Real.sin phi, ?_, ?_, ?_, ?_⟩,
    ⟨Real.sin theta * Real.sin phi, r * Real.sin theta * Real.cos phi,
      r * Real.cos theta * Real.sin phi, ?_, ?_, ?_, ?_⟩,
    ⟨Real.cos phi, r * (-Real.sin phi), 0, ?_, ?_, ?_, ?_⟩⟩
  · have h := ((hasDerivAt_id r).mul_const (Real.cos theta)).mul_const (Real.sin phi)
    simpa [pos, to_cartesian, Coord.r, Coord.phi, Coord.theta] using h
  · have h := (Real.hasDerivAt_sin phi).const_mul (r * Real.cos theta)
    simpa [pos, to_cartesian, Coord.r, Coord.phi, Coord.theta] using h
  · have h := ((Real.hasDerivAt_cos theta).const_mul r).mul_const (Real.sin phi)
    simpa [pos, to_cartesian, Coord.r, Coord.phi, Coord.theta] using h
  · simp only [vel, to_cartesian, Coord.r, Coord.phi, Coord.theta]; ring
  · have h := ((hasDerivAt_id r).mul_const (Real.sin theta)).mul_const (Real.sin phi)
    simpa [pos, to_cartesian, Coord.r, Coord.phi, Coord.theta] using h
  · have h := (Real.hasDerivAt_sin phi).const_mul (r * Real.sin theta)
    simpa [pos, to_cartesian, Coord.r, Coord.phi, Coord.theta] using h
  · have h := ((Real.hasDerivAt_sin theta).const_mul r).mul_const (Real.sin phi)
    simpa [pos, to_cartesian, Coord.r, Coord.phi, Coord.theta] using h
  · simp only [vel, to_cartesian, Coord.r, Coord.phi, Coord.theta]; ring
  · have h := (hasDerivAt_id r).mul_const (Real.cos phi)
    simpa [pos, to_cartesian, Coord.r, Coord.phi, Coord.theta] using h
  · have h := (Real.hasDerivAt_cos phi).const_mul r
    simpa [pos, to_cartesian, Coord.r, Coord.phi, Coord.theta] using h
  · simpa [pos, to_cartesian, Coord.r, Coord.phi, Coord.theta] using
      hasDerivAt_const theta (r * Real.cos phi)
  · simp only [vel, to_cartesian, Coord.r, Coord.phi, Coord.theta]; ring

/-- Claim C5, refuted as stated: at `r = 2`, `phi = 0`, `theta = 0` and spherical
velocity `(0, 1, 0)` the code returns the velocity `(2, 0, 0)`, while the
unit-basis combination is `(1, 0, 0)`; the squared Cartesian speed is `4`, not
`0^2 + 1^2 + 0^2`. -/
theorem to_cartesian_velocity_not_unit_basis :
    (to_cartesian Real.cos Real.sin (Coord.mk 2 0 0) (Coord.mk 0 1 0)).2 = Coord.mk 2 0 0 ∧
    unit_basis_velocity Real.cos Real.sin (Coord.mk 2 0 0) (Coord.mk 0 1 0) = Coord.mk 1 0 0 ∧
    (to_cartesian Real.cos Real.sin (Coord.mk 2 0 0) (Coord.mk 0 1 0)).2 ≠
      unit_basis_velocity Real.cos Real.sin (Coord.mk 2 0 0) (Coord.mk 0 1 0) ∧
    (to_cartesian Real.cos Real.sin (Coord.mk 2 0 0) (Coord.mk 0 1 0)).2.x ^ 2 +
      (to_cartesian Real.cos Real.sin (Coord.mk 2 0 0) (Coord.mk 0 1 0)).2.y ^ 2 +
      (to_cartesian Real.cos Real.sin (Coord.mk 2 0 0) (Coord.mk 0 1 0)).2.z ^ 2 ≠
      (0 : ℝ) ^ 2 + 1 ^ 2 + 0 ^ 2 := by
  have h1 : (to_cartesian Real.cos Real.sin (Coord.mk 2 0 0) (Coord.mk 0 1 0)).2
      = Coord.mk 2 0 0 := by
    simp [to_cartesian, Coord.r, Coord.phi, Coord.theta]
  have h2 : unit_basis_velocity Real.cos Real.sin (Coord.mk 2 0 0) (Coord.mk 0 1 0)
      = Coord.mk 1 0 0 := by
    simp [unit_basis_velocity, Coord.r, Coord.phi, Coord.theta]
  refine ⟨h1, h2, ?_, ?_⟩
  · rw [h1, h2]; simp
  · rw [h1]; norm_num

/-- Claim C5, amended: `to_cartesian` treats `(v_r, v_phi, v_theta)` as the rates of
change of the coordinates `r`, `phi`, `theta`. For all real `r`, `phi`, `theta` the
output velocity is `v_r * r_hat + (r * v_phi) * phi_hat + (r * sin phi * v_theta) * theta_hat`
with the unit vectors of the claim, and the squared Cartesian speed is
`v_r^2 + (r * v_phi)^2 + (r * sin phi * v_theta)^2`. -/
theorem to_cartesian_velocity_coordinate_rates (r phi theta v_r v_phi v_theta : ℝ) :
    let vel : Coord ℝ :=
      (to_cartesian Real.cos Real.sin (Coord.mk r phi theta) (Coord.mk v_r v_phi v_theta)).2
    vel = unit_basis_velocity Real.cos Real.sin (Coord.mk r phi theta)
        (Coord.mk v_r (r * v_phi) (r * Real.sin phi * v_theta)) ∧
    vel.x ^ 2 + vel.y ^ 2 + vel.z ^ 2 =
      v_r ^ 2 + (r * v_phi) ^ 2 + (r * Real.sin phi * v_theta) ^ 2 := by
  intro vel
  constructor
  · simp only [vel, to_cartesian, unit_basis_velocity, Coord.r, Coord.phi, Coord.theta,
      Coord.mk.injEq]
    refine ⟨by ring, by ring, by ring⟩
  · simp only [vel, to_cartesian, Coord.r, Coord.phi, Coord.theta]
    have h1 := Real.sin_sq_add_cos_sq theta
    have h2 := Real.sin_sq_add_cos_sq phi
    have e1 : Real.cos theta ^ 2 = 1 - Real.sin theta ^ 2 := by linarith
    have e2 : Real.cos phi ^ 2 = 1 - Real.sin phi ^ 2 := by linarith
    ring_nf
    rw [e1, e2]
    ring

/-! ## Driver loop -/

lemma advance_coordinates_t [Field α] (sqrt : α → α) (sys : Plummer α) (dt : α) :
    (sys.advance_coordinates sqrt dt).t = sys.t := rfl

section DriverTheorems

variable [LinearOrderedField α]

lemma write_if_due_sys (args : Args α) (s : LoopState α) :
    (write_if_due args s).sys = s.sys := by
  unfold write_if_due
  split <;> rfl

lemma loop_iteration_t (sqrt : α → α) (args : Args α) (s : LoopState α) :
    (loop_iteration sqrt args s).sys.t = s.sys.t + args.time_step := by
  simp only [loop_iteration, write_if_due_sys, advance_coordinates_t]

lemma loop_iteration_due (sqrt : α → α) (args : Args α) (s : LoopState α)
    (h : s.output_time ≤ s.sys.t) :
    (loop_iteration sqrt args s).output_time = s.output_time + args.out_interval ∧
    (loop_iteration sqrt args s).out_file = s.out_file ++ [s.sys.snapshot] := by
  simp [loop_iteration, write_if_due, h]

lemma loop_iteration_not_due (sqrt : α → α) (args : Args α) (s : LoopState α)
    (h : ¬ s.output_time ≤ s.sys.t) :
    (loop_iteration sqrt args s).output_time = s.output_time ∧
    (loop_iteration sqrt args s).out_file = s.out_file := by
  simp [loop_iteration, write_if_due, h]

lemma evolve_loop_cadence (sqrt : α → α) (args : Args α) (fuel : Nat) (s : LoopState α) :
    (evolve_loop sqrt args fuel s).map
        (fun r => (r.sys.t, r.output_time, r.out_file.map Snapshot.t)) =
      cadence args fuel s.sys.t s.output_time (s.out_file.map Snapshot.t) := by
  induction fuel generalizing s with
  | zero => rfl
  | succ fuel ih =>
    unfold evolve_loop cadence
    by_cases hlt : s.sys.t < args.end_time
    · rw [if_pos hlt, if_pos hlt, ih, loop_iteration_t]
      by_cases hdue : s.output_time ≤ s.sys.t
      · obtain ⟨h1, h2⟩ := loop_iteration_due sqrt args s hdue
        rw [if_pos hdue, h1, h2]
        simp [Plummer.snapshot]
      · obtain ⟨h1, h2⟩ := loop_iteration_not_due sqrt args s hdue
        rw [if_neg hdue, h1, h2]
    · rw [if_neg hlt, if_neg hlt]
      rfl

lemma cadence_mono (args : Args α) (fuel k : Nat) (t ot : α) (ts : List α) (r : α × α × List α)
    (h : cadence args fuel t ot ts = some r) : cadence args (fuel + k) t ot ts = some r := by
  induction fuel generalizing t ot ts with
  | zero => simp [cadence] at h
  | succ fuel ih =>
    rw [Nat.succ_add]
    unfold cadence at h ⊢
    split_ifs at h ⊢ with h1 h2
    · exact ih _ _ _ h
    · exact ih _ _ _ h
    · exact h

lemma cadence_due (args : Args α) (fuel : Nat) {t ot : α} (t1 ot1 : α) (ts : List α)
    (h1 : t < args.end_time) (h2 : ot ≤ t) (e1 : t + args.time_step = t1)
    (e2 : ot + args.out_interval = ot1) :
    cadence args (fuel + 1) t ot ts = cadence args fuel t1 ot1 (ts ++ [t]) := by
  subst e1 e2
  simp only [cadence, if_pos h1, ge_iff_le, if_pos h2]

lemma cadence_skip (args : Args α) (fuel : Nat) {t ot : α} (t1 : α) (ts : List α)
    (h1 : t < args.end_time) (h2 : t < ot) (e1 : t + args.time_step = t1) :
    cadence args (fuel + 1) t ot ts = cadence args fuel t1 ot ts := by
  subst e1
  simp only [cadence, if_pos h1, ge_iff_le, if_neg (not_le.mpr h2)]

lemma cadence_exit (args : Args α) (fuel : Nat) {t ot : α} (ts : List α)
    (h1 : args.end_time ≤ t) :
    cadence args (fuel + 1) t ot ts = some (t, ot, ts) := by
  simp only [cadence, if_neg (not_lt.mpr h1)]

lemma cadence_scenario (file_name : String) (k : Nat) :
    cadence (Args.mk (1.0 : α) 0.1 0.25 file_name) (11 + k) 0 0 [] =
      some (1, 1, [0.0, 0.3, 0.5, 0.8]) := by
  rw [show 11 + k = k + 10 + 1 by omega]
  rw [cadence_due _ (k + 10) 0.1 0.25 [] (by norm_num) (by norm_num)
    (by norm_num) (by norm_num)]
  rw [cadence_skip _ (k + 9) 0.2 _ (by norm_num) (by norm_num) (by norm_num)]
  rw [cadence_skip _ (k + 8) 0.3 _ (by norm_num) (by norm_num) (by norm_num)]
  rw [cadence_due _ (k + 7) 0.4 0.5 _ (by norm_num) (by norm_num)
    (by norm_num) (by norm_num)]
  rw [cadence_skip _ (k + 6) 0.5 _ (by norm_num) (by norm_num) (by norm_num)]
  rw [cadence_due _ (k + 5) 0.6 0.75 _ (by norm_num) (by norm_num)
    (by norm_num) (by norm_num)]
  rw [cadence_skip _ (k + 4) 0.7 _ (by norm_num) (by norm_num) (by norm_num)]
  rw [cadence_skip _ (k + 3) 0.8 _ (by norm_num) (by norm_num) (by norm_num)]
  rw [cadence_due _ (k + 2) 0.9 1 _ (by norm_num) (by norm_num)
    (by norm_num) (by norm_num)]
  rw [cadence_skip _ (k + 1) 1 _ (by norm_num) (by norm_num) (by norm_num)]
  rw [cadence_exit _ k _ (by norm_num)]
  norm_num

lemma evolve_times (sqrt : α → α) (fuel : Nat) (sys : Plummer α) (args : Args α) :
    (evolve sqrt true fuel sys args).map Run.times =
      (cadence args fuel sys.t 0 []).map (fun r => r.2.2) := by
  have h := evolve_loop_cadence sqrt args fuel { sys := sys, output_time := 0, out_file := [] }
  simp only [List.map_nil] at h
  rw [← h]
  simp only [evolve, if_true, Option.map_map]
  rfl

/-- Claim C6, amended: from time 0 with `end_time = 1.0`, `time_step = 0.1` and
`output_interval = 0.25`, whatever the particle state, the run ends (eleven
evaluations of the loop condition suffice) and the snapshots are written at
exactly the times `0.0, 0.3, 0.5, 0.8`, in that order. -/
theorem evolve_scenario_snapshot_times (sqrt : α → α) (v p : Coord α) (M a : α) (file_name : String) (k : Nat) :
    (evolve sqrt true (11 + k) { v := v, p := p, M := M, a := a, t := 0 }
      (Args.mk 1.0 0.1 0.25 file_name)).map Run.times = some [0.0, 0.3, 0.5, 0.8] := by
  rw [evolve_times, cadence_scenario]
  rfl

/-- Claim C6, refuted as stated: for the particle at `(1, 0, 0)` with velocity
`(0, 1, 0)`, `M = a = 1`, the run of the scenario writes its snapshots at
`0.0, 0.3, 0.5, 0.8`, and with no amount of fuel are the snapshot times
`0.0, 0.3, 0.6, 0.9`. -/
theorem evolve_scenario_not_every_third_step :
    (evolve Real.sqrt true 11 (Plummer.mk (Coord.mk 0 1 0) (Coord.mk 1 0 0) 1 1 0)
      (Args.mk 1.0 0.1 0.25 "plummer.txt")).map Run.times = some [0.0, 0.3, 0.5, 0.8] ∧
    ¬ ∃ fuel : Nat,
      (evolve Real.sqrt true fuel (Plummer.mk (Coord.mk 0 1 0) (Coord.mk 1 0 0) 1 1 0)
        (Args.mk 1.0 0.1 0.25 "plummer.txt")).map Run.times = some [0.0, 0.3, 0.6, 0.9] := by
  constructor
  · rw [evolve_times, show (11 : Nat) = 11 + 0 from rfl, cadence_scenario]
    rfl
  · rintro ⟨fuel, h⟩
    rw [evolve_times] at h
    obtain ⟨r, hr, hL⟩ := Option.map_eq_some'.mp h
    have h2 := cadence_mono _ fuel 11 _ _ _ r hr
    rw [Nat.add_comm, cadence_scenario] at h2
    rw [← Option.some.inj h2] at hL
    norm_num at hL

/-- Claim C8: `advance_coordinates` changes position and velocity only: the time `t`,
the mass `M` and the scale length `a` after the step are those before it. The time
is advanced by the driver loop, by exactly `time_step` in each pass, which leaves
`M` and `a` alone as well. -/
theorem advance_coordinates_frame (sqrt : α → α) (sys : Plummer α) (dt : α) (args : Args α)
    (s : LoopState α) :
    (sys.advance_coordinates sqrt dt).t = sys.t ∧
    (sys.advance_coordinates sqrt dt).M = sys.M ∧
    (sys.advance_coordinates sqrt dt).a = sys.a ∧
    (loop_iteration sqrt args s).sys.t = s.sys.t + args.time_step ∧
    (loop_iteration sqrt args s).sys.M = s.sys.M ∧
    (loop_iteration sqrt args s).sys.a = s.sys.a := by
  refine ⟨rfl, rfl, rfl, loop_iteration_t sqrt args s, ?_, ?_⟩
  · simp only [loop_iteration, write_if_due_sys]
    rfl
  · simp only [loop_iteration, write_if_due_sys]
    rfl

/-- Claim C10: when the output file cannot be opened, `evolve` returns at once: the
system (position, velocity, time, `M`, `a`) is the one passed in, no snapshot is
written, and the failure is reported on standard output. No fuel is needed. -/
theorem evolve_sink_not_open (sqrt : α → α) (fuel : Nat) (sys : Plummer α) (args : Args α) :
    evolve sqrt false fuel sys args =
      some { sys := sys, out_file := [], stdout := ["fail to open the output file!\n"] } :=
  rfl

end DriverTheorems

/-! ## The exact arithmetic gives back the definitions over a field -/

section ArithExact

variable [LinearOrderedField α]

lemma arith_exact_calc_acceleration (sqrt : α → α) (sys : Plummer α) :
    (Arith.exact sqrt).calc_acceleration sys = sys.calc_acceleration sqrt :=
  rfl

lemma arith_exact_advance_coordinates (sqrt : α → α) (sys : Plummer α) (dt : α) :
    (Arith.exact sqrt).advance_coordinates sys dt = sys.advance_coordinates sqrt dt :=
  rfl

lemma arith_exact_loop_iteration (sqrt : α → α) (args : Args α) (s : LoopState α) :
    (Arith.exact sqrt).loop_iteration args s = loop_iteration sqrt args s := by
  unfold Arith.loop_iteration loop_iteration Arith.write_if_due write_if_due
  by_cases h : s.sys.t ≥ s.output_time
  · have h1 : (Arith.exact sqrt).ge s.sys.t s.output_time = true := decide_eq_true h
    rw [if_pos h1, if_pos h]
    rfl
  · have h1 : ¬ ((Arith.exact sqrt).ge s.sys.t s.output_time = true) := by
      show ¬ (decide (s.sys.t ≥ s.output_time) = true)
      simpa using h
    rw [if_neg h1, if_neg h]
    rfl

lemma arith_exact_evolve_loop (sqrt : α → α) (args : Args α) (fuel : Nat) (s : LoopState α) :
    (Arith.exact sqrt).evolve_loop args fuel s = evolve_loop sqrt args fuel s := by
  induction fuel generalizing s with
  | zero => rfl
  | succ fuel ih =>
    unfold Arith.evolve_loop evolve_loop
    by_cases h : s.sys.t < args.end_time
    · have h1 : (Arith.exact sqrt).lt s.sys.t args.end_time = true := decide_eq_true h
      rw [if_pos h1, if_pos h, ih, arith_exact_loop_iteration]
    · have h1 : ¬ ((Arith.exact sqrt).lt s.sys.t args.end_time = true) := by
        show ¬ (decide (s.sys.t < args.end_time) = true)
        simpa using h
      rw [if_neg h1, if_neg h]

lemma arith_exact_evolve (sqrt : α → α) (is_open : Bool) (fuel : Nat) (sys : Plummer α)
    (args : Args α) :
    (Arith.exact sqrt).evolve is_open fuel sys args = evolve sqrt is_open fuel sys args := by
  unfold Arith.evolve evolve
  rw [arith_exact_evolve_loop]
  rfl

end ArithExact

/-! ## Binary64: lower bounds that survive rounding -/

section Binary64Bounds

lemma log2_search_le (n : Nat) : ∀ (i e : Nat), 2 ^ e ≤ n → 2 ^ F64.log2_search n i e ≤ n
  | 0, _, h => h
  | i + 1, e, h => by
    unfold F64.log2_search
    split_ifs with h1
    · exact log2_search_le n i _ h1
    · exact log2_search_le n i e h

lemma log2_search_lt (n : Nat) : ∀ (i e : Nat), n < 2 ^ (e + 2 ^ i) →
    n < 2 ^ (F64.log2_search n i e + 1)
  | 0, _, h => by simpa using h
  | i + 1, e, h => by
    unfold F64.log2_search
    split_ifs with h1
    · apply log2_search_lt n i
      rw [Nat.add_assoc, ← Nat.two_mul, ← pow_succ']
      exact h
    · exact log2_search_lt n i e (not_le.mp h1)

lemma log2_le (n : Nat) (h : 1 ≤ n) : 2 ^ F64.log2 n ≤ n :=
  log2_search_le n 12 0 (by simpa using h)

lemma log2_lt (n : Nat) (h : n < 2 ^ 4096) : n < 2 ^ (F64.log2 n + 1) :=
  log2_search_lt n 12 0 (by rw [show (0 + 2 ^ 12 : Nat) = 4096 from rfl]; exact h)

lemma round_half_even_ge (n d : Nat) : n / d ≤ F64.round_half_even n d := by
  unfold F64.round_half_even
  simp only
  split_ifs <;> omega

lemma round_half_even_le (n d : Nat) : F64.round_half_even n d ≤ n / d + 1 := by
  unfold F64.round_half_even
  simp only
  split_ifs <;> omega

set_option exponentiation.threshold 5000 in
/-- Rounding a non-negative quotient `n / d` gives `+∞` or a finite double below
`2^1024` that is at least half the quotient. -/
lemma round_lower (n d : Nat) :
    F64.round false n d = F64.inf false ∨
      ∃ k : Nat, n / d ≤ 2 * k ∧ k < 2 ^ 2098 ∧ F64.round false n d = F64.fin false k := by
  unfold F64.round
  simp only
  by_cases hq : n / d < 2 ^ 53
  · right
    refine ⟨F64.round_half_even n d, ?_, ?_, by rw [if_pos hq]⟩
    · have := round_half_even_ge n d
      omega
    · have := round_half_even_le n d
      have h53 : (2 : Nat) ^ 53 < 2 ^ 2098 := Nat.pow_lt_pow_right (by norm_num) (by norm_num)
      generalize (2 : Nat) ^ 2098 = B at h53 ⊢
      generalize (2 : Nat) ^ 53 = C at h53 hq
      omega
  · rw [if_neg hq]
    by_cases hk : F64.round_half_even n (d * 2 ^ (F64.log2 (n / d) - 52))
        * 2 ^ (F64.log2 (n / d) - 52) < 2 ^ 2098
    · right
      refine ⟨_, ?_, hk, by rw [if_pos hk]⟩
      have hq1 : 2 ^ 53 ≤ n / d := not_lt.mp hq
      have h53 : (2 : Nat) ≤ 2 ^ 53 := by
        calc (2 : Nat) = 2 ^ 1 := by norm_num
          _ ≤ 2 ^ 53 := Nat.pow_le_pow_right (by norm_num) (by norm_num)
      have hlog := log2_le (n / d) (by omega)
      have hj : 2 * 2 ^ (F64.log2 (n / d) - 52) ≤ n / d := by
        by_cases h52 : 52 ≤ F64.log2 (n / d)
        · have e : 2 ^ (F64.log2 (n / d) - 52) * 2 ^ 52 = 2 ^ F64.log2 (n / d) := by
            rw [← pow_add, Nat.sub_add_cancel h52]
          have h2 : (2 : Nat) ≤ 2 ^ 52 := by
            calc (2 : Nat) = 2 ^ 1 := by norm_num
              _ ≤ 2 ^ 52 := Nat.pow_le_pow_right (by norm_num) (by norm_num)
          calc 2 * 2 ^ (F64.log2 (n / d) - 52)
              = 2 ^ (F64.log2 (n / d) - 52) * 2 := Nat.mul_comm _ _
            _ ≤ 2 ^ (F64.log2 (n / d) - 52) * 2 ^ 52 := Nat.mul_le_mul_left _ h2
            _ = 2 ^ F64.log2 (n / d) := e
            _ ≤ n / d := hlog
        · have e : F64.log2 (n / d) - 52 = 0 := by omega
          rw [e]
          omega
      have hge := round_half_even_ge n (d * 2 ^ (F64.log2 (n / d) - 52))
      rw [← Nat.div_div_eq_div_mul] at hge
      have hJ : 0 < 2 ^ (F64.log2 (n / d) - 52) := Nat.two_pow_pos _
      generalize 2 ^ (F64.log2 (n / d) - 52) = J at hj hge hk hJ ⊢
      generalize F64.round_half_even n (d * J) = r at hge hk ⊢
      have hdm := Nat.div_add_mod (n / d) J
      have hmod := Nat.mod_lt (n / d) hJ
      have hmul : n / d / J * J ≤ r * J := Nat.mul_le_mul_right J hge
      have hcomm : J * (n / d / J) = n / d / J * J := Nat.mul_comm _ _
      omega
    · left
      rw [if_neg hk]

end Binary64Bounds

section Binary64Ops

lemma round_atLeast (n d m : Nat) (h : 2 * m ≤ n / d) : F64.atLeast m (F64.round false n d) := by
  rcases round_lower n d with h1 | ⟨k, hk, hb, h1⟩
  · rw [h1]
    unfold F64.atLeast
    exact trivial
  · rw [h1]
    unfold F64.atLeast
    exact ⟨by omega, hb⟩

lemma atLeast_cases (m : Nat) (x : F64) (hx : F64.atLeast m x) :
    x = F64.inf false ∨ ∃ k : Nat, m ≤ k ∧ k < 2 ^ 2098 ∧ x = F64.fin false k := by
  cases x with
  | fin s k =>
    cases s with
    | false =>
      unfold F64.atLeast at hx
      exact Or.inr ⟨k, hx.1, hx.2, rfl⟩
    | true =>
      unfold F64.atLeast at hx
      exact hx.elim
  | inf s =>
    cases s with
    | false => exact Or.inl rfl
    | true =>
      unfold F64.atLeast at hx
      exact hx.elim
  | nan =>
    unfold F64.atLeast at hx
    exact hx.elim

lemma atLeast_inf (m : Nat) : F64.atLeast m (F64.inf false) := by
  unfold F64.atLeast
  exact trivial

lemma atLeast_fin (m k : Nat) (h1 : m ≤ k) (h2 : k < 2 ^ 2098) :
    F64.atLeast m (F64.fin false k) := by
  unfold F64.atLeast
  exact ⟨h1, h2⟩

lemma atLeast_mono (m1 m2 : Nat) (x : F64) (h : m2 ≤ m1) (hx : F64.atLeast m1 x) :
    F64.atLeast m2 x := by
  rcases atLeast_cases m1 x hx with rfl | ⟨k, h1, h2, rfl⟩
  · exact atLeast_inf m2
  · exact atLeast_fin m2 k (le_trans h h1) h2

lemma mul_self_atLeast (s : Bool) (k m : Nat) (h : 2 * m ≤ k * k / 2 ^ 1074) :
    F64.atLeast m (F64.mul (F64.fin s k) (F64.fin s k)) := by
  have e : F64.mul (F64.fin s k) (F64.fin s k) = F64.round false (k * k) (2 ^ 1074) := by
    cases s <;> rfl
  rw [e]
  exact round_atLeast _ _ _ h

lemma mul_self_atLeast_zero (x : F64) (hx : x ≠ F64.nan) : F64.atLeast 0 (F64.mul x x) := by
  cases x with
  | fin s k => exact mul_self_atLeast s k 0 (Nat.zero_le _)
  | inf s =>
    have e : F64.mul (F64.inf s) (F64.inf s) = F64.inf false := by
      cases s <;> rfl
    rw [e]
    exact atLeast_inf 0
  | nan => exact absurd rfl hx

lemma mul_self_magAtLeast (x : F64) (m r : Nat) (hx : F64.magAtLeast m x)
    (h : 2 * r ≤ m * m / 2 ^ 1074) : F64.atLeast r (F64.mul x x) := by
  cases x with
  | fin s k =>
    unfold F64.magAtLeast at hx
    exact mul_self_atLeast s k r (le_trans h (Nat.div_le_div_right (Nat.mul_le_mul hx hx)))
  | inf s =>
    have e : F64.mul (F64.inf s) (F64.inf s) = F64.inf false := by
      cases s <;> rfl
    rw [e]
    exact atLeast_inf r
  | nan =>
    unfold F64.magAtLeast at hx
    exact hx.elim

lemma mul_atLeast (m1 m2 m : Nat) (x y : F64) (hx : F64.atLeast m1 x) (hy : F64.atLeast m2 y)
    (h1 : 1 ≤ m1) (h2 : 1 ≤ m2) (h : 2 * m ≤ m1 * m2 / 2 ^ 1074) :
    F64.atLeast m (F64.mul x y) := by
  rcases atLeast_cases m1 x hx with rfl | ⟨k1, hk1, _, rfl⟩ <;>
    rcases atLeast_cases m2 y hy with rfl | ⟨k2, hk2, _, rfl⟩
  · exact atLeast_inf m
  · have hk : k2 ≠ 0 := by omega
    have e : F64.mul (F64.inf false) (F64.fin false k2) = F64.inf false := by
      simp [F64.mul, hk]
    rw [e]
    exact atLeast_inf m
  · have hk : k1 ≠ 0 := by omega
    have e : F64.mul (F64.fin false k1) (F64.inf false) = F64.inf false := by
      simp [F64.mul, hk]
    rw [e]
    exact atLeast_inf m
  · have e : F64.mul (F64.fin false k1) (F64.fin false k2)
        = F64.round false (k1 * k2) (2 ^ 1074) := rfl
    rw [e]
    apply round_atLeast
    exact le_trans h (Nat.div_le_div_right (Nat.mul_le_mul hk1 hk2))

lemma add_atLeast (m1 m2 m : Nat) (x y : F64) (hx : F64.atLeast m1 x) (hy : F64.atLeast m2 y)
    (h : 2 * m ≤ m1 + m2) : F64.atLeast m (F64.add x y) := by
  rcases atLeast_cases m1 x hx with rfl | ⟨k1, hk1, _, rfl⟩ <;>
    rcases atLeast_cases m2 y hy with rfl | ⟨k2, hk2, _, rfl⟩
  · exact atLeast_inf m
  · exact atLeast_inf m
  · exact atLeast_inf m
  · have e : F64.add (F64.fin false k1) (F64.fin false k2) = F64.round false (k1 + k2) 1 := by
      simp [F64.add]
    rw [e]
    apply round_atLeast
    rw [Nat.div_one]
    omega

lemma isqrt_bits_mono (N : Nat) : ∀ (i r : Nat), r ≤ F64.isqrt_bits N i r
  | 0, _ => Nat.le_refl _
  | i + 1, r => by
    unfold F64.isqrt_bits
    split_ifs
    · exact le_trans (Nat.le_add_right r _) (isqrt_bits_mono N i _)
    · exact isqrt_bits_mono N i r

lemma isqrt_bits_sq_le (N : Nat) : ∀ (i r : Nat), r * r ≤ N →
    F64.isqrt_bits N i r * F64.isqrt_bits N i r ≤ N
  | 0, _, h => h
  | i + 1, r, h => by
    unfold F64.isqrt_bits
    split_ifs with h1
    · exact isqrt_bits_sq_le N i _ h1
    · exact isqrt_bits_sq_le N i r h

lemma isqrt_bits_ge (N b : Nat) (hb : 2 ^ b * 2 ^ b ≤ N) : ∀ (i r : Nat), b < i →
    (r = 0 ∨ 2 ^ b ≤ r) → 2 ^ b ≤ F64.isqrt_bits N i r
  | 0, _, h, _ => absurd h (Nat.not_lt_zero b)
  | i + 1, r, h, hr => by
    unfold F64.isqrt_bits
    rcases Nat.lt_succ_iff_lt_or_eq.mp h with hlt | heq
    · split_ifs
      · apply isqrt_bits_ge N b hb i _ hlt
        right
        exact le_trans (Nat.pow_le_pow_right (by norm_num) (Nat.le_of_lt hlt))
          (Nat.le_add_left _ _)
      · exact isqrt_bits_ge N b hb i r hlt hr
    · subst heq
      rcases hr with h0 | hge
      · subst h0
        have h1 : (0 + 2 ^ b) * (0 + 2 ^ b) ≤ N := by simpa using hb
        rw [if_pos h1]
        exact le_trans (Nat.le_add_left _ _) (isqrt_bits_mono N b _)
      · split_ifs
        · exact le_trans (le_trans hge (Nat.le_add_right r _)) (isqrt_bits_mono N b _)
        · exact le_trans hge (isqrt_bits_mono N b r)

set_option exponentiation.threshold 5000 in
lemma isqrt_ge (N b : Nat) (hb : 2 ^ b * 2 ^ b ≤ N) (hN : N < 2 ^ 4096) :
    2 ^ b ≤ F64.isqrt N := by
  unfold F64.isqrt
  apply isqrt_bits_ge N b hb _ _ _ (Or.inl rfl)
  have h1 := log2_lt N hN
  have h2 : 2 ^ (b + b) < 2 ^ (F64.log2 N + 1) := by
    rw [pow_add]
    exact lt_of_le_of_lt hb h1
  have h3 := (Nat.pow_lt_pow_iff_right (by norm_num : 1 < 2)).mp h2
  omega

lemma isqrt_sq_le (N : Nat) : F64.isqrt N * F64.isqrt N ≤ N :=
  isqrt_bits_sq_le N _ 0 (Nat.zero_le N)

end Binary64Ops

section Binary64Sqrt

lemma two_pow_log2_sub_le (q : Nat) (hq : 2 ^ 53 ≤ q) : 2 * 2 ^ (F64.log2 q - 52) ≤ q := by
  have h53 : (2 : Nat) ≤ 2 ^ 53 := by
    calc (2 : Nat) = 2 ^ 1 := by norm_num
      _ ≤ 2 ^ 53 := Nat.pow_le_pow_right (by norm_num) (by norm_num)
  have hlog := log2_le q (by omega)
  by_cases h52 : 52 ≤ F64.log2 q
  · have e : 2 ^ (F64.log2 q - 52) * 2 ^ 52 = 2 ^ F64.log2 q := by
      rw [← pow_add, Nat.sub_add_cancel h52]
    have h2 : (2 : Nat) ≤ 2 ^ 52 := by
      calc (2 : Nat) = 2 ^ 1 := by norm_num
        _ ≤ 2 ^ 52 := Nat.pow_le_pow_right (by norm_num) (by norm_num)
    calc 2 * 2 ^ (F64.log2 q - 52)
        = 2 ^ (F64.log2 q - 52) * 2 := Nat.mul_comm _ _
      _ ≤ 2 ^ (F64.log2 q - 52) * 2 ^ 52 := Nat.mul_le_mul_left _ h2
      _ = 2 ^ F64.log2 q := e
      _ ≤ q := hlog
  · have e : F64.log2 q - 52 = 0 := by omega
    rw [e]
    omega

lemma floor_multiple_bounds (q J t1 : Nat) (hJ : 0 < J) (hj : 2 * J ≤ q) (h1 : q / J ≤ t1)
    (h2 : t1 ≤ q / J + 1) : q ≤ 2 * (t1 * J) ∧ t1 * J ≤ 2 * q := by
  have hdm := Nat.div_add_mod q J
  have hmod := Nat.mod_lt q hJ
  have hcomm : J * (q / J) = q / J * J := Nat.mul_comm _ _
  have hl : q / J * J ≤ t1 * J := Nat.mul_le_mul_right J h1
  have hu : t1 * J ≤ (q / J + 1) * J := Nat.mul_le_mul_right J h2
  rw [Nat.add_mul, Nat.one_mul] at hu
  constructor <;> omega

set_option exponentiation.threshold 5000 in
lemma sqrt_atLeast (m b r : Nat) (x : F64) (hx : F64.atLeast m x) (h1 : 1 ≤ m)
    (hb : 2 ^ b * 2 ^ b ≤ m * 2 ^ 1074) (hr : 2 * r ≤ 2 ^ b) :
    F64.atLeast r (F64.sqrt x) := by
  rcases atLeast_cases m x hx with rfl | ⟨k, hk1, hk2, rfl⟩
  · exact atLeast_inf r
  · have hk : k ≠ 0 := by omega
    have e : F64.sqrt (F64.fin false k) = F64.sqrt_round k := by
      simp [F64.sqrt, hk]
    rw [e]
    have hN : k * 2 ^ 1074 < 2 ^ 3172 := by
      calc k * 2 ^ 1074 < 2 ^ 2098 * 2 ^ 1074 :=
            Nat.mul_lt_mul_of_pos_right hk2 (Nat.two_pow_pos _)
        _ = 2 ^ 3172 := by rw [← pow_add]
    have hN1 : k * 2 ^ 1074 < 2 ^ 4096 :=
      lt_trans hN (Nat.pow_lt_pow_right (by norm_num) (by norm_num))
    have hbN : 2 ^ b * 2 ^ b ≤ k * 2 ^ 1074 :=
      le_trans hb (Nat.mul_le_mul_right _ hk1)
    have hq := isqrt_ge (k * 2 ^ 1074) b hbN hN1
    have hsq := isqrt_sq_le (k * 2 ^ 1074)
    have hqu : F64.isqrt (k * 2 ^ 1074) < 2 ^ 1586 := by
      by_contra hnot
      have h2 := Nat.mul_le_mul (not_lt.mp hnot) (not_lt.mp hnot)
      rw [← pow_add] at h2
      have : (2 : Nat) ^ (1586 + 1586) = 2 ^ 3172 := by norm_num
      omega
    have hbig : (2 : Nat) ^ 1586 * 2 ≤ 2 ^ 2098 := by
      calc (2 : Nat) ^ 1586 * 2 = 2 ^ 1587 := by rw [← pow_succ]
        _ ≤ 2 ^ 2098 := Nat.pow_le_pow_right (by norm_num) (by norm_num)
    unfold F64.sqrt_round
    simp only
    generalize F64.isqrt (k * 2 ^ 1074) = q at hq hsq hqu ⊢
    by_cases h53 : q < 2 ^ 53
    · rw [if_pos h53]
      have h53b : (2 : Nat) ^ 53 < 2 ^ 2098 := Nat.pow_lt_pow_right (by norm_num) (by norm_num)
      split_ifs
      · exact atLeast_fin r q (by omega) (by omega)
      · exact atLeast_fin r (q + 1) (by omega) (by omega)
    · rw [if_neg h53]
      have hj := two_pow_log2_sub_le q (not_lt.mp h53)
      have hJ : 0 < 2 ^ (F64.log2 q - 52) := Nat.two_pow_pos _
      generalize 2 ^ (F64.log2 q - 52) = J at hj hJ ⊢
      split_ifs
      · obtain ⟨hl, hu⟩ := floor_multiple_bounds q J (q / J) hJ hj (Nat.le_refl _)
          (Nat.le_succ _)
        exact atLeast_fin r _ (by omega) (by omega)
      · obtain ⟨hl, hu⟩ := floor_multiple_bounds q J (q / J + 1) hJ hj (Nat.le_succ _)
          (Nat.le_refl _)
        exact atLeast_fin r _ (by omega) (by omega)
      · obtain ⟨hl, hu⟩ := floor_multiple_bounds q J (q / J) hJ hj (Nat.le_refl _)
          (Nat.le_succ _)
        exact atLeast_fin r _ (by omega) (by omega)
      · obtain ⟨hl, hu⟩ := floor_multiple_bounds q J (q / J + 1) hJ hj (Nat.le_succ _)
          (Nat.le_refl _)
        exact atLeast_fin r _ (by omega) (by omega)

end Binary64Sqrt

section Binary64Radius

set_option exponentiation.threshold 5000 in
lemma binary64_square_atLeast (x : F64) (hx : F64.magAtLeast (2 ^ 720) x) :
    F64.atLeast (2 ^ 365) (F64.mul x x) := by
  apply mul_self_magAtLeast x (2 ^ 720) (2 ^ 365) hx
  norm_num

set_option exponentiation.threshold 5000 in
/-- In binary64, when none of the position coordinates and `a` is `NaN` and one of them
has magnitude at least `2^(-354)`, the radius `d` computed by `calc_acceleration` is `+∞`
or at least `2^(-357)`, and the divisor `d * d * d` is `+∞` or a positive finite
double. -/
lemma binary64_divisor_atLeast (s : Plummer F64)
    (hx : s.p.x ≠ F64.nan) (hy : s.p.y ≠ F64.nan) (hz : s.p.z ≠ F64.nan) (ha : s.a ≠ F64.nan)
    (hbig : F64.magAtLeast (2 ^ 720) s.a ∨ F64.magAtLeast (2 ^ 720) s.p.x ∨
      F64.magAtLeast (2 ^ 720) s.p.y ∨ F64.magAtLeast (2 ^ 720) s.p.z) :
    F64.atLeast (2 ^ 717) (F64.arith.softened_radius s) ∧
    F64.atLeast 1
      (F64.mul (F64.mul (F64.arith.softened_radius s) (F64.arith.softened_radius s))
        (F64.arith.softened_radius s)) := by
  have hX := mul_self_atLeast_zero s.p.x hx
  have hY := mul_self_atLeast_zero s.p.y hy
  have hZ := mul_self_atLeast_zero s.p.z hz
  have hA := mul_self_atLeast_zero s.a ha
  have hS : F64.atLeast (2 ^ 362)
      (F64.add (F64.add (F64.add (F64.mul s.p.x s.p.x) (F64.mul s.p.y s.p.y))
        (F64.mul s.p.z s.p.z)) (F64.mul s.a s.a)) := by
    rcases hbig with h | h | h | h
    · have hS1 := add_atLeast 0 0 0 _ _ hX hY (Nat.le_refl _)
      have hS2 := add_atLeast 0 0 0 _ _ hS1 hZ (Nat.le_refl _)
      exact add_atLeast 0 (2 ^ 365) (2 ^ 362) _ _ hS2 (binary64_square_atLeast _ h)
        (by norm_num)
    · have hS1 := add_atLeast (2 ^ 365) 0 (2 ^ 364) _ _ (binary64_square_atLeast _ h) hY
        (by norm_num)
      have hS2 := add_atLeast (2 ^ 364) 0 (2 ^ 363) _ _ hS1 hZ (by norm_num)
      exact add_atLeast (2 ^ 363) 0 (2 ^ 362) _ _ hS2 hA (by norm_num)
    · have hS1 := add_atLeast 0 (2 ^ 365) (2 ^ 364) _ _ hX (binary64_square_atLeast _ h)
        (by norm_num)
      have hS2 := add_atLeast (2 ^ 364) 0 (2 ^ 363) _ _ hS1 hZ (by norm_num)
      exact add_atLeast (2 ^ 363) 0 (2 ^ 362) _ _ hS2 hA (by norm_num)
    · have hS1 := add_atLeast 0 0 0 _ _ hX hY (Nat.le_refl _)
      have hS2 := add_atLeast 0 (2 ^ 365) (2 ^ 364) _ _ hS1 (binary64_square_atLeast _ h)
        (by norm_num)
      exact add_atLeast (2 ^ 364) 0 (2 ^ 362) _ _ hS2 hA (by norm_num)
  have hd : F64.atLeast (2 ^ 717) (F64.arith.softened_radius s) :=
    sqrt_atLeast (2 ^ 362) 718 (2 ^ 717) _ hS (Nat.one_le_two_pow) (by norm_num) (by norm_num)
  have hdd := mul_atLeast (2 ^ 717) (2 ^ 717) (2 ^ 359) _ _ hd hd Nat.one_le_two_pow
    Nat.one_le_two_pow (by norm_num)
  have hD := mul_atLeast (2 ^ 359) (2 ^ 717) 2 _ _ hdd hd Nat.one_le_two_pow
    Nat.one_le_two_pow (by norm_num)
  exact ⟨hd, atLeast_mono _ 1 _ (by norm_num) hD⟩

end Binary64Radius

section Binary64Origin

lemma round_zero (s : Bool) (d : Nat) (hd : 0 < d) : F64.round s 0 d = F64.fin s 0 := by
  have h53 : 0 < 2 ^ 53 := Nat.two_pow_pos 53
  simp [F64.round, F64.round_half_even, hd]

set_option exponentiation.threshold 5000 in
lemma round_fin (s : Bool) (n d : Nat) (hq : n / d < 2 ^ 2097) :
    ∃ k : Nat, F64.round s n d = F64.fin s k := by
  unfold F64.round
  simp only
  by_cases h53 : n / d < 2 ^ 53
  · exact ⟨_, by rw [if_pos h53]⟩
  · rw [if_neg h53]
    have hj := two_pow_log2_sub_le (n / d) (not_lt.mp h53)
    have hJ : 0 < 2 ^ (F64.log2 (n / d) - 52) := Nat.two_pow_pos _
    have hle := round_half_even_le n (d * 2 ^ (F64.log2 (n / d) - 52))
    rw [← Nat.div_div_eq_div_mul] at hle
    generalize 2 ^ (F64.log2 (n / d) - 52) = J at hj hJ hle ⊢
    obtain ⟨_, hu⟩ := floor_multiple_bounds (n / d) J (n / d / J + 1) hJ hj (Nat.le_succ _)
      (Nat.le_refl _)
    have hmul : F64.round_half_even n (d * J) * J ≤ (n / d / J + 1) * J :=
      Nat.mul_le_mul_right J hle
    have hk : F64.round_half_even n (d * J) * J < 2 ^ 2098 := by
      have e : (2 : Nat) ^ 2098 = 2 * 2 ^ 2097 := by norm_num
      omega
    exact ⟨_, by rw [if_pos hk]⟩

set_option exponentiation.threshold 5000 in
lemma binary64_calc_acceleration_eq (s : Plummer F64) :
    F64.arith.calc_acceleration s =
      Coord.mk
        (F64.div (F64.mul (F64.mul (F64.neg F64.arith.G) s.M) s.p.x)
          (F64.mul (F64.mul (F64.arith.softened_radius s) (F64.arith.softened_radius s))
            (F64.arith.softened_radius s)))
        (F64.div (F64.mul (F64.mul (F64.neg F64.arith.G) s.M) s.p.y)
          (F64.mul (F64.mul (F64.arith.softened_radius s) (F64.arith.softened_radius s))
            (F64.arith.softened_radius s)))
        (F64.div (F64.mul (F64.mul (F64.neg F64.arith.G) s.M) s.p.z)
          (F64.mul (F64.mul (F64.arith.softened_radius s) (F64.arith.softened_radius s))
            (F64.arith.softened_radius s))) :=
  rfl

set_option exponentiation.threshold 5000 in
/-- In binary64, with the particle at the origin (each coordinate `+0` or `-0`), a
finite `M` of magnitude below `2^1023` and a finite `a` of magnitude at least
`2^(-354)`, every component of the acceleration is a zero. -/
lemma binary64_origin_zero (v : Coord F64) (sx sy sz sM sa : Bool) (kM ka : Nat) (t : F64)
    (hM : kM < 2 ^ 2097) (ha : 2 ^ 720 ≤ ka) :
    ∃ s1 s2 s3 : Bool,
      F64.arith.calc_acceleration
        (Plummer.mk v (Coord.mk (F64.fin sx 0) (F64.fin sy 0) (F64.fin sz 0)) (F64.fin sM kM)
          (F64.fin sa ka) t)
        = Coord.mk (F64.fin s1 0) (F64.fin s2 0) (F64.fin s3 0) := by
  obtain ⟨_, hD⟩ := binary64_divisor_atLeast
    (Plummer.mk v (Coord.mk (F64.fin sx 0) (F64.fin sy 0) (F64.fin sz 0)) (F64.fin sM kM)
      (F64.fin sa ka) t) (by simp) (by simp) (by simp) (by simp)
    (Or.inl (by unfold F64.magAtLeast; exact ha))
  obtain ⟨k, hk⟩ : ∃ k : Nat, F64.mul (F64.neg F64.arith.G) (F64.fin sM kM)
      = F64.fin (xor true sM) k := by
    have e : F64.mul (F64.neg F64.arith.G) (F64.fin sM kM)
        = F64.round (xor true sM) (2 ^ 1074 * kM) (2 ^ 1074) := by
      have e1 : F64.neg F64.arith.G = F64.fin true (2 ^ 1074) := by decide!
      rw [e1]
      rfl
    rw [e]
    apply round_fin
    rw [Nat.mul_div_cancel_left _ (Nat.two_pow_pos _)]
    exact hM
  have hnum : ∀ s0 : Bool, F64.mul (F64.fin (xor true sM) k) (F64.fin s0 0)
      = F64.fin (xor (xor true sM) s0) 0 := by
    intro s0
    have e : F64.mul (F64.fin (xor true sM) k) (F64.fin s0 0)
        = F64.round (xor (xor true sM) s0) (k * 0) (2 ^ 1074) := rfl
    rw [e, Nat.mul_zero, round_zero _ _ (Nat.two_pow_pos _)]
  have hdiv : ∀ s0 : Bool, ∃ s1 : Bool,
      F64.div (F64.fin s0 0)
        (F64.mul
          (F64.mul
            (F64.arith.softened_radius
              (Plummer.mk v (Coord.mk (F64.fin sx 0) (F64.fin sy 0) (F64.fin sz 0))
                (F64.fin sM kM) (F64.fin sa ka) t))
            (F64.arith.softened_radius
              (Plummer.mk v (Coord.mk (F64.fin sx 0) (F64.fin sy 0) (F64.fin sz 0))
                (F64.fin sM kM) (F64.fin sa ka) t)))
          (F64.arith.softened_radius
            (Plummer.mk v (Coord.mk (F64.fin sx 0) (F64.fin sy 0) (F64.fin sz 0))
              (F64.fin sM kM) (F64.fin sa ka) t))) = F64.fin s1 0 := by
    intro s0
    rcases atLeast_cases 1 _ hD with h | ⟨kD, h1, _, h⟩
    · rw [h]
      exact ⟨xor s0 false, rfl⟩
    · rw [h]
      have hk0 : kD ≠ 0 := by omega
      refine ⟨xor s0 false, ?_⟩
      have e : F64.div (F64.fin s0 0) (F64.fin false kD)
          = F64.round (xor s0 false) (0 * 2 ^ 1074) kD := by
        simp [F64.div, hk0]
      rw [e, Nat.zero_mul, round_zero _ _ (by omega)]
  obtain ⟨s1, h1⟩ := hdiv (xor (xor true sM) sx)
  obtain ⟨s2, h2⟩ := hdiv (xor (xor true sM) sy)
  obtain ⟨s3, h3⟩ := hdiv (xor (xor true sM) sz)
  refine ⟨s1, s2, s3, ?_⟩
  rw [binary64_calc_acceleration_eq]
  dsimp only
  rw [hk, hnum, hnum, hnum, h1, h2, h3]

end Binary64Origin

/-! ## The driver loop over the arithmetic of `double` -/

section ArithDriver

section Binary64Stall

end Binary64Stall

end ArithDriver

/-! ## Acceleration: magnitude and direction -/

lemma sqrt_rpow_three_halves (S : ℝ) (hS : 0 ≤ S) : S ^ ((3 : ℝ) / 2) = Real.sqrt S ^ 3 := by
  rw [show (3 : ℝ) / 2 = (1 / 2) * ((3 : ℕ) : ℝ) by norm_num, Real.rpow_mul hS,
    Real.rpow_natCast, ← Real.sqrt_eq_rpow]

lemma softened_radius_pos (sys : Plummer ℝ) (h : sys.a ≠ 0 ∨ sys.p ≠ Coord.mk 0 0 0) :
    0 < sys.softened_radius Real.sqrt := by
  obtain ⟨v, ⟨x, y, z⟩, M, a, t⟩ := sys
  have hx := mul_self_nonneg x
  have hy := mul_self_nonneg y
  have hz := mul_self_nonneg z
  have ha := mul_self_nonneg a
  apply Real.sqrt_pos.mpr
  show 0 < x * x + y * y + z * z + a * a
  by_contra hn
  have h0 : x * x = 0 ∧ y * y = 0 ∧ z * z = 0 ∧ a * a = 0 :=
    ⟨by linarith, by linarith, by linarith, by linarith⟩
  obtain ⟨h1, h2, h3, h4⟩ := h0
  have hx0 := mul_self_eq_zero.mp h1
  have hy0 := mul_self_eq_zero.mp h2
  have hz0 := mul_self_eq_zero.mp h3
  have ha0 := mul_self_eq_zero.mp h4
  rcases h with h | h
  · exact h ha0
  · apply h
    show Coord.mk x y z = Coord.mk 0 0 0
    rw [hx0, hy0, hz0]

/-- Claim C7: over the reals, for `M > 0` and every position `p = (x, y, z)` with
`a ≠ 0` or `p` not the origin, the divisor `d * d * d` of `calc_acceleration` is
positive, and the Euclidean norm of the acceleration is
`G * M * |p| / (|p|^2 + a^2)^(3/2)`; when moreover `a = 0` the acceleration is `-k * p`
for some `k > 0`. The state with `a = 0` at the origin, where the code divides zero by
zero, is left out. -/
theorem calc_acceleration_norm_and_direction (v : Coord ℝ) (x y z M a t : ℝ) (hM : 0 < M)
    (hd : a ≠ 0 ∨ Coord.mk x y z ≠ Coord.mk 0 0 0) :
    let sys : Plummer ℝ := { v := v, p := Coord.mk x y z, M := M, a := a, t := t }
    let acc : Coord ℝ := Plummer.calc_acceleration Real.sqrt sys
    let norm_p : ℝ := Real.sqrt (x ^ 2 + y ^ 2 + z ^ 2)
    0 < sys.softened_radius Real.sqrt * sys.softened_radius Real.sqrt
      * sys.softened_radius Real.sqrt ∧
    Real.sqrt (acc.x ^ 2 + acc.y ^ 2 + acc.z ^ 2) =
      G * M * norm_p / (norm_p ^ 2 + a ^ 2) ^ ((3 : ℝ) / 2) ∧
    (a = 0 → ∃ k : ℝ, 0 < k ∧ acc = Coord.mk (-k * x) (-k * y) (-k * z)) := by
  intro sys acc norm_p
  have hP : 0 ≤ x ^ 2 + y ^ 2 + z ^ 2 := by positivity
  have hS : 0 ≤ x ^ 2 + y ^ 2 + z ^ 2 + a ^ 2 := by positivity
  have hnp : norm_p ^ 2 = x ^ 2 + y ^ 2 + z ^ 2 := Real.sq_sqrt hP
  have hnp0 : 0 ≤ norm_p := Real.sqrt_nonneg _
  have hd0 : 0 ≤ Real.sqrt (x ^ 2 + y ^ 2 + z ^ 2 + a ^ 2) := Real.sqrt_nonneg _
  have hrad : 0 < sys.softened_radius Real.sqrt := softened_radius_pos sys hd
  have hrad_eq : sys.softened_radius Real.sqrt = Real.sqrt (x ^ 2 + y ^ 2 + z ^ 2 + a ^ 2) := by
    simp only [sys, Plummer.softened_radius]
    congr 1
    ring
  have hacc : acc = Coord.mk
      (-(M * x) / Real.sqrt (x ^ 2 + y ^ 2 + z ^ 2 + a ^ 2) ^ 3)
      (-(M * y) / Real.sqrt (x ^ 2 + y ^ 2 + z ^ 2 + a ^ 2) ^ 3)
      (-(M * z) / Real.sqrt (x ^ 2 + y ^ 2 + z ^ 2 + a ^ 2) ^ 3) := by
    simp only [acc, sys, Plummer.calc_acceleration, G, Coord.mk.injEq]
    refine ⟨?_, ?_, ?_⟩ <;> ring_nf
  refine ⟨by positivity, ?_, ?_⟩
  · rw [hnp, sqrt_rpow_three_halves _ hS, hacc]
    simp only [G]
    have hsq : (-(M * x) / Real.sqrt (x ^ 2 + y ^ 2 + z ^ 2 + a ^ 2) ^ 3) ^ 2
        + (-(M * y) / Real.sqrt (x ^ 2 + y ^ 2 + z ^ 2 + a ^ 2) ^ 3) ^ 2
        + (-(M * z) / Real.sqrt (x ^ 2 + y ^ 2 + z ^ 2 + a ^ 2) ^ 3) ^ 2
        = (1 * M * norm_p / Real.sqrt (x ^ 2 + y ^ 2 + z ^ 2 + a ^ 2) ^ 3) ^ 2 := by
      have e : (1 * M * norm_p / Real.sqrt (x ^ 2 + y ^ 2 + z ^ 2 + a ^ 2) ^ 3) ^ 2
          = M ^ 2 * norm_p ^ 2 / (Real.sqrt (x ^ 2 + y ^ 2 + z ^ 2 + a ^ 2) ^ 3) ^ 2 := by ring
      rw [e, hnp]
      ring
    rw [hsq]
    exact Real.sqrt_sq (by positivity)
  · intro _
    have hd1 : 0 < Real.sqrt (x ^ 2 + y ^ 2 + z ^ 2 + a ^ 2) := hrad_eq ▸ hrad
    refine ⟨M / Real.sqrt (x ^ 2 + y ^ 2 + z ^ 2 + a ^ 2) ^ 3, by positivity, ?_⟩
    rw [hacc]
    simp only [Coord.mk.injEq]
    refine ⟨?_, ?_, ?_⟩ <;> ring

/-- Witness for C7 at `M = 2`, `p = (3, 4, 0)`, `a = 0`: the hypotheses hold, the divisor
is positive, the norm formula holds there and the acceleration is a negative multiple
of `p`. -/
theorem calc_acceleration_norm_and_direction_witness :
    (0 : ℝ) < 2 ∧ ((0 : ℝ) ≠ 0 ∨ Coord.mk (3 : ℝ) 4 0 ≠ Coord.mk 0 0 0) ∧
    0 < (Plummer.mk (Coord.mk 0 1 0) (Coord.mk 3 4 0) (2 : ℝ) 0 0).softened_radius Real.sqrt
      * (Plummer.mk (Coord.mk 0 1 0) (Coord.mk 3 4 0) (2 : ℝ) 0 0).softened_radius Real.sqrt
      * (Plummer.mk (Coord.mk 0 1 0) (Coord.mk 3 4 0) (2 : ℝ) 0 0).softened_radius Real.sqrt ∧
    Real.sqrt
      ((Plummer.calc_acceleration Real.sqrt
          (Plummer.mk (Coord.mk 0 1 0) (Coord.mk 3 4 0) 2 0 0)).x ^ 2
      + (Plummer.calc_acceleration Real.sqrt
          (Plummer.mk (Coord.mk 0 1 0) (Coord.mk 3 4 0) 2 0 0)).y ^ 2
      + (Plummer.calc_acceleration Real.sqrt
          (Plummer.mk (Coord.mk 0 1 0) (Coord.mk 3 4 0) 2 0 0)).z ^ 2)
      = G * 2 * Real.sqrt (3 ^ 2 + 4 ^ 2 + 0 ^ 2)
        / (Real.sqrt (3 ^ 2 + 4 ^ 2 + 0 ^ 2) ^ 2 + 0 ^ 2) ^ ((3 : ℝ) / 2) ∧
    ∃ k : ℝ, 0 < k ∧
      Plummer.calc_acceleration Real.sqrt (Plummer.mk (Coord.mk 0 1 0) (Coord.mk 3 4 0) 2 0 0)
        = Coord.mk (-k * 3) (-k * 4) (-k * 0) :=
  ⟨by norm_num, Or.inr (by simp),
    (calc_acceleration_norm_and_direction (Coord.mk 0 1 0) 3 4 0 2 0 0 (by norm_num)
      (Or.inr (by simp))).1,
    (calc_acceleration_norm_and_direction (Coord.mk 0 1 0) 3 4 0 2 0 0 (by norm_num)
      (Or.inr (by simp))).2.1,
    (calc_acceleration_norm_and_direction (Coord.mk 0 1 0) 3 4 0 2 0 0 (by norm_num)
      (Or.inr (by simp))).2.2 rfl⟩

set_option maxRecDepth 100000 in
/-- Claim C7, counterexample: in binary64, at `a = 0` with the particle at the origin
(`M = 1`), `calc_acceleration` computes `d = 0` and divides `-0` by `0`: every component
of the acceleration is `NaN`, so it has no norm to equal `G * M * |p| / (|p|^2 + a^2)^(3/2)`,
which the claim asserts for every position. -/
theorem calc_acceleration_origin_nan :
    F64.arith.softened_radius
      (Plummer.mk (Coord.mk (F64.fin false 0) (F64.fin false 0) (F64.fin false 0))
        (Coord.mk (F64.fin false 0) (F64.fin false 0) (F64.fin false 0))
        (F64.ofFrac false 1 1) (F64.fin false 0) (F64.fin false 0)) = F64.fin false 0 ∧
    F64.arith.calc_acceleration
      (Plummer.mk (Coord.mk (F64.fin false 0) (F64.fin false 0) (F64.fin false 0))
        (Coord.mk (F64.fin false 0) (F64.fin false 0) (F64.fin false 0))
        (F64.ofFrac false 1 1) (F64.fin false 0) (F64.fin false 0))
      = Coord.mk F64.nan F64.nan F64.nan := by
  decide!

/-! ## Configuration reader -/

/-- Claim C13, refuted as stated: for a reader that holds only the key `M`, `get`
with the key `a` prints its diagnostic and ends the process with `exit (0)`: the
exit status is zero, and with no non-zero status does the call end. -/
theorem get_missing_key_exit_status_zero :
    ConfigReader.get (fun _ => (0 : ℚ)) { map_ := ConfigMap.assign (fun _ => none) "M" "1" } "a"
      = Outcome.exited 0 "Invalid key for configure file!\n" ∧
    ¬ ∃ (status : Int) (msg : String), status ≠ 0 ∧
      ConfigReader.get (fun _ => (0 : ℚ)) { map_ := ConfigMap.assign (fun _ => none) "M" "1" } "a"
        = Outcome.exited status msg := by
  have h : ConfigReader.get (fun _ => (0 : ℚ))
      { map_ := ConfigMap.assign (fun _ => none) "M" "1" } "a"
      = Outcome.exited 0 "Invalid key for configure file!\n" := by
    decide
  refine ⟨h, ?_⟩
  rintro ⟨status, msg, hne, heq⟩
  rw [h] at heq
  injection heq with h1 h2
  exact hne h1.symm

/-- Claim C13, amended: `get` called with a key that does not occur in the map prints
the one-line diagnostic `Invalid key for configure file!` and ends the process with
`exit (0)`, exit status zero, returning no value. -/
theorem get_missing_key_exits {T : Type} (extract : String → T) (c : ConfigReader)
    (key : String) (hkey : c.map_ key = none) :
    ConfigReader.get extract c key = Outcome.exited 0 "Invalid key for configure file!\n" := by
  simp [ConfigReader.get, hkey]

/-- Witness for C13 at the reader holding only `M`, asked for `a`. -/
theorem get_missing_key_exits_witness :
    (ConfigMap.assign (fun _ => none) "M" "1") "a" = none ∧
    ConfigReader.get (fun _ => (0 : ℚ)) { map_ := ConfigMap.assign (fun _ => none) "M" "1" } "a"
      = Outcome.exited 0 "Invalid key for configure file!\n" :=
  ⟨by decide, get_missing_key_exits (fun _ => (0 : ℚ)) _ "a" (by decide)⟩

/-- Claim C14, refuted as stated: with the key `M` stored as the text `abc`, and with
the key `a` stored as the empty text, `get` returns a value to the caller (here the
`0` a failed extraction leaves) and does not end the process. -/
theorem get_unparseable_value_returns :
    ConfigReader.get (fun _ => (0 : ℚ)) { map_ := ConfigMap.assign (fun _ => none) "M" "abc" } "M"
      = Outcome.returned 0 ∧
    ConfigReader.get (fun _ => (0 : ℚ)) { map_ := ConfigMap.assign (fun _ => none) "a" "" } "a"
      = Outcome.returned 0 ∧
    ¬ ∃ (status : Int) (msg : String),
      ConfigReader.get (fun _ => (0 : ℚ)) { map_ := ConfigMap.assign (fun _ => none) "M" "abc" } "M"
        = Outcome.exited status msg := by
  have h : ConfigReader.get (fun _ => (0 : ℚ))
      { map_ := ConfigMap.assign (fun _ => none) "M" "abc" } "M" = Outcome.returned 0 := by
    decide
  refine ⟨h, by decide, ?_⟩
  rintro ⟨status, msg, heq⟩
  rw [h] at heq
  exact Outcome.noConfusion heq

/-- Claim C14, amended: `get` called with a key that is present always returns to the
caller: the value is whatever the stream extraction leaves in `value` for the stored
text, parsable or not; the process is not ended and nothing is printed. -/
theorem get_present_key_returns {T : Type} (extract : String → T) (c : ConfigReader)
    (key text : String) (hkey : c.map_ key = some text) :
    ConfigReader.get extract c key = Outcome.returned (extract text) := by
  simp [ConfigReader.get, hkey]

/-- Witness for C14 at the reader holding `M` as `abc`. -/
theorem get_present_key_returns_witness :
    (ConfigMap.assign (fun _ => none) "M" "abc") "M" = some "abc" ∧
    ConfigReader.get (fun _ => (0 : ℚ)) { map_ := ConfigMap.assign (fun _ => none) "M" "abc" } "M"
      = Outcome.returned ((fun _ => (0 : ℚ)) "abc") :=
  ⟨by decide, get_present_key_returns (fun _ => (0 : ℚ)) _ "M" "abc" (by decide)⟩

lemma take_indexOf_eq_takeWhile (c : Char) (l : List Char) :
    l.take (l.indexOf c) = l.takeWhile (fun x => x != c) := by
  induction l with
  | nil => rfl
  | cons a l ih =>
    by_cases h : a = c
    · subst h
      simp [List.indexOf_cons_self, List.takeWhile]
    · have hb : (a != c) = true := by simpa using h
      rw [List.indexOf_cons_ne _ (fun h1 => h h1)]
      simp only [List.take_succ_cons, List.takeWhile_cons, hb, ih, if_true]

lemma drop_indexOf_succ_eq_dropWhile (c : Char) (l : List Char) :
    l.drop (l.indexOf c + 1) = (l.dropWhile (fun x => x != c)).drop 1 := by
  induction l with
  | nil => rfl
  | cons a l ih =>
    by_cases h : a = c
    · subst h
      simp [List.indexOf_cons_self, List.dropWhile]
    · have hb : (a != c) = true := by simpa using h
      rw [List.indexOf_cons_ne _ (fun h1 => h h1)]
      simp only [List.drop_succ_cons, List.dropWhile_cons, hb, ih, if_true]

lemma read_line_well_formed (divider commenter : Char) (m : ConfigMap) (line : String)
    (hlen : line.data.length < 2 ^ 64) (hwf : well_formed_line divider commenter line) :
    ConfigReader.read_line divider commenter m line =
      some (spec_read_line divider commenter m line) := by
  unfold ConfigReader.read_line spec_read_line
  generalize hs : line.data.filter (fun c => !isspace c) = stripped at *
  have hle : stripped.length ≤ line.data.length := by
    rw [← hs]; exact List.length_filter_le _ _
  unfold well_formed_line at hwf
  rw [hs] at hwf
  cases stripped with
  | nil => simp
  | cons a l =>
    by_cases hc : a = commenter
    · simp [hc]
    · have hdiv : divider ∈ a :: l := by
        rcases hwf with h | h | h
        · simp at h
        · simp at h; exact absurd h hc
        · exact h
      have hidx : (a :: l).indexOf divider < (a :: l).length := List.indexOf_lt_length.mpr hdiv
      have hmod : ((a :: l).indexOf divider + 1) % 2 ^ 64 = (a :: l).indexOf divider + 1 :=
        Nat.mod_eq_of_lt (by omega)
      have hnpos : (a :: l).length ≤ npos := by unfold npos; omega
      simp only [List.headD_cons, beq_iff_eq, hc, List.isEmpty_cons, Bool.or_false,
        Bool.false_eq_true, if_false, string_find, hdiv, if_true, string_substr, hmod,
        List.head?_cons, Option.some.injEq]
      rw [if_neg (by omega), if_neg (by omega)]
      simp only [List.drop_zero, take_indexOf_eq_takeWhile, drop_indexOf_succ_eq_dropWhile]
      rw [List.take_of_length_le (le_trans (List.drop_suffix 1 _).length_le
        (le_trans (List.dropWhile_suffix _).length_le hnpos))]
      have hc2 : ¬ (some a == some commenter) = true := by simpa using hc
      simp only [Bool.false_or, hc2, if_false]
      rfl

lemma read_lines_well_formed (divider commenter : Char) (m : ConfigMap) (lines : List String)
    (hlen : ∀ line ∈ lines, line.data.length < 2 ^ 64)
    (hwf : ∀ line ∈ lines, well_formed_line divider commenter line) :
    ConfigReader.read_lines divider commenter m lines =
      some (lines.foldl (spec_read_line divider commenter) m) := by
  induction lines generalizing m with
  | nil => rfl
  | cons line rest ih =>
    simp only [ConfigReader.read_lines, List.foldl_cons]
    rw [read_line_well_formed divider commenter m line (hlen line (List.mem_cons_self _ _))
      (hwf line (List.mem_cons_self _ _))]
    exact ih _ (fun l hl => hlen l (List.mem_cons_of_mem _ hl))
      (fun l hl => hwf l (List.mem_cons_of_mem _ hl))

/-- Claim C15 at the file whose only line is `abc` (no divider): the constructor
stores the whole line as key and as value, because `find` returns `npos` and
`npos + 1` wraps to `0`; the map the specification describes has the empty text
after the (absent) divider as the value. -/
theorem config_reader_line_without_divider :
    (∃ c : ConfigReader,
      ConfigReader.new (some ["abc"]) "config.txt" '=' '#' = Outcome.returned c ∧
      c.map_ "abc" = some "abc") ∧
    spec_config_map '=' '#' ["abc"] "abc" = some "" :=
  ⟨⟨_, rfl, by decide⟩, by decide⟩

/-! ## Softening, reversibility, angular momentum -/

lemma calc_acceleration_eq_radius [Field α] (sqrt : α → α) (sys : Plummer α) :
    sys.calc_acceleration sqrt =
      Coord.mk
        (-G * sys.M * sys.p.x /
          (sys.softened_radius sqrt * sys.softened_radius sqrt * sys.softened_radius sqrt))
        (-G * sys.M * sys.p.y /
          (sys.softened_radius sqrt * sys.softened_radius sqrt * sys.softened_radius sqrt))
        (-G * sys.M * sys.p.z /
          (sys.softened_radius sqrt * sys.softened_radius sqrt * sys.softened_radius sqrt)) :=
  rfl

lemma advance_coordinates_eq_half_drift [Field α] (sqrt : α → α) (sys : Plummer α) (dt : α) :
    sys.advance_coordinates sqrt dt =
      { v := Coord.mk
          ((sys.half_drift dt).v.x + ((sys.half_drift dt).calc_acceleration sqrt).x * dt)
          ((sys.half_drift dt).v.y + ((sys.half_drift dt).calc_acceleration sqrt).y * dt)
          ((sys.half_drift dt).v.z + ((sys.half_drift dt).calc_acceleration sqrt).z * dt),
        p := Coord.mk
          ((sys.half_drift dt).p.x
            + ((sys.half_drift dt).v.x + ((sys.half_drift dt).calc_acceleration sqrt).x * dt)
              * (0.5 * dt))
          ((sys.half_drift dt).p.y
            + ((sys.half_drift dt).v.y + ((sys.half_drift dt).calc_acceleration sqrt).y * dt)
              * (0.5 * dt))
          ((sys.half_drift dt).p.z
            + ((sys.half_drift dt).v.z + ((sys.half_drift dt).calc_acceleration sqrt).z * dt)
              * (0.5 * dt)),
        M := sys.M, a := sys.a, t := sys.t } :=
  rfl

lemma sum_sq_eq_zero_iff (x y z a : ℝ) :
    x * x + y * y + z * z + a * a = 0 ↔ a = 0 ∧ x = 0 ∧ y = 0 ∧ z = 0 := by
  constructor
  · intro h
    have hx := mul_self_nonneg x
    have hy := mul_self_nonneg y
    have hz := mul_self_nonneg z
    have ha := mul_self_nonneg a
    refine ⟨?_, ?_, ?_, ?_⟩ <;> exact mul_self_eq_zero.mp (by linarith)
  · rintro ⟨rfl, rfl, rfl, rfl⟩
    ring

set_option exponentiation.threshold 5000 in
/-- Claim C16: over the reals, `calc_acceleration` divides by `d * d * d`, with `d` the
softened radius; `d` is zero exactly when `a = 0` and the position is the origin; so
when `a ≠ 0` or the position is not the origin the divisor `d * d * d` is positive;
and for `a > 0` the acceleration that `advance_coordinates` uses is the one at the
half-drifted position, where `d ≥ a > 0`. In binary64, for every state in which none of
`a` and the position coordinates is `NaN` and one of them has magnitude at least
`2^(-354)`, the radius `d` that `calc_acceleration` computes is `+∞` or at least
`2^(-357)`, and the divisor `d * d * d` is `+∞` or a positive finite double. -/
theorem softened_radius_zero_iff (sys : Plummer ℝ) :
    sys.calc_acceleration Real.sqrt =
      Coord.mk
        (-G * sys.M * sys.p.x /
          (sys.softened_radius Real.sqrt * sys.softened_radius Real.sqrt
            * sys.softened_radius Real.sqrt))
        (-G * sys.M * sys.p.y /
          (sys.softened_radius Real.sqrt * sys.softened_radius Real.sqrt
            * sys.softened_radius Real.sqrt))
        (-G * sys.M * sys.p.z /
          (sys.softened_radius Real.sqrt * sys.softened_radius Real.sqrt
            * sys.softened_radius Real.sqrt)) ∧
    (sys.softened_radius Real.sqrt = 0 ↔ sys.a = 0 ∧ sys.p = Coord.mk 0 0 0) ∧
    (sys.a ≠ 0 ∨ sys.p ≠ Coord.mk 0 0 0 →
      0 < sys.softened_radius Real.sqrt * sys.softened_radius Real.sqrt
        * sys.softened_radius Real.sqrt) ∧
    (0 < sys.a → ∀ dt : ℝ,
      (sys.advance_coordinates Real.sqrt dt).v =
        Coord.mk (sys.v.x + ((sys.half_drift dt).calc_acceleration Real.sqrt).x * dt)
          (sys.v.y + ((sys.half_drift dt).calc_acceleration Real.sqrt).y * dt)
          (sys.v.z + ((sys.half_drift dt).calc_acceleration Real.sqrt).z * dt) ∧
      sys.a ≤ (sys.half_drift dt).softened_radius Real.sqrt ∧
      0 < (sys.half_drift dt).softened_radius Real.sqrt) ∧
    (∀ s : Plummer F64,
      s.p.x ≠ F64.nan → s.p.y ≠ F64.nan → s.p.z ≠ F64.nan → s.a ≠ F64.nan →
      F64.magAtLeast (2 ^ 720) s.a ∨ F64.magAtLeast (2 ^ 720) s.p.x ∨
        F64.magAtLeast (2 ^ 720) s.p.y ∨ F64.magAtLeast (2 ^ 720) s.p.z →
      F64.arith.calc_acceleration s =
        Coord.mk
          (F64.div (F64.mul (F64.mul (F64.neg F64.arith.G) s.M) s.p.x)
            (F64.mul (F64.mul (F64.arith.softened_radius s) (F64.arith.softened_radius s))
              (F64.arith.softened_radius s)))
          (F64.div (F64.mul (F64.mul (F64.neg F64.arith.G) s.M) s.p.y)
            (F64.mul (F64.mul (F64.arith.softened_radius s) (F64.arith.softened_radius s))
              (F64.arith.softened_radius s)))
          (F64.div (F64.mul (F64.mul (F64.neg F64.arith.G) s.M) s.p.z)
            (F64.mul (F64.mul (F64.arith.softened_radius s) (F64.arith.softened_radius s))
              (F64.arith.softened_radius s))) ∧
      F64.atLeast (2 ^ 717) (F64.arith.softened_radius s) ∧
      F64.atLeast 1
        (F64.mul (F64.mul (F64.arith.softened_radius s) (F64.arith.softened_radius s))
          (F64.arith.softened_radius s))) := by
  have hnn : ∀ s : Plummer ℝ,
      0 ≤ s.p.x * s.p.x + s.p.y * s.p.y + s.p.z * s.p.z + s.a * s.a := fun s => by
    have hx := mul_self_nonneg s.p.x
    have hy := mul_self_nonneg s.p.y
    have hz := mul_self_nonneg s.p.z
    have ha := mul_self_nonneg s.a
    linarith
  have hzero : sys.softened_radius Real.sqrt = 0 ↔ sys.a = 0 ∧ sys.p = Coord.mk 0 0 0 := by
    unfold Plummer.softened_radius
    rw [Real.sqrt_eq_zero (hnn sys), sum_sq_eq_zero_iff]
    obtain ⟨v, ⟨x, y, z⟩, M, a, t⟩ := sys
    simp
  refine ⟨calc_acceleration_eq_radius Real.sqrt sys, hzero, ?_, ?_, ?_⟩
  · intro h
    have hpos : 0 < sys.softened_radius Real.sqrt := softened_radius_pos sys h
    positivity
  · intro ha dt
    have hle : sys.a ≤ (sys.half_drift dt).softened_radius Real.sqrt := by
      unfold Plummer.softened_radius
      apply Real.le_sqrt_of_sq_le
      have hx := mul_self_nonneg (sys.half_drift dt).p.x
      have hy := mul_self_nonneg (sys.half_drift dt).p.y
      have hz := mul_self_nonneg (sys.half_drift dt).p.z
      have e : (sys.half_drift dt).a = sys.a := rfl
      rw [e]
      nlinarith
    refine ⟨?_, hle, lt_of_lt_of_le ha hle⟩
    rw [advance_coordinates_eq_half_drift]
    rfl
  · intro s hx hy hz ha hbig
    exact ⟨binary64_calc_acceleration_eq s, binary64_divisor_atLeast s hx hy hz ha hbig⟩

set_option maxRecDepth 100000 in
set_option exponentiation.threshold 5000 in
lemma binary64_one_magAtLeast : F64.magAtLeast (2 ^ 720) (F64.ofFrac false 1 1) := by
  rw [show F64.ofFrac false 1 1 = F64.fin false (2 ^ 1074) by decide!]
  unfold F64.magAtLeast
  exact Nat.pow_le_pow_right (by norm_num) (by norm_num)

set_option maxRecDepth 100000 in
set_option exponentiation.threshold 5000 in
/-- Witness for C16 at `a = 1`, position `(1, 0, 0)`, velocity `(0, 1, 0)`, over the reals
and in binary64. -/
theorem softened_radius_zero_iff_witness :
    ((1 : ℝ) ≠ 0 ∨ (Coord.mk (1 : ℝ) 0 0) ≠ Coord.mk 0 0 0) ∧ (0 : ℝ) < 1 ∧
    0 < (Plummer.mk (Coord.mk 0 1 0) (Coord.mk 1 0 0) (1 : ℝ) 1 0).softened_radius Real.sqrt
        * (Plummer.mk (Coord.mk 0 1 0) (Coord.mk 1 0 0) (1 : ℝ) 1 0).softened_radius Real.sqrt
        * (Plummer.mk (Coord.mk 0 1 0) (Coord.mk 1 0 0) (1 : ℝ) 1 0).softened_radius Real.sqrt ∧
    (1 : ℝ) ≤ ((Plummer.mk (Coord.mk 0 1 0) (Coord.mk 1 0 0) (1 : ℝ) 1 0).half_drift
        0.01).softened_radius Real.sqrt ∧
    F64.magAtLeast (2 ^ 720) (F64.ofFrac false 1 1) ∧
    F64.atLeast 1
      (F64.mul
        (F64.mul
          (F64.arith.softened_radius
            (Plummer.mk (Coord.mk (F64.fin false 0) (F64.ofFrac false 1 1) (F64.fin false 0))
              (Coord.mk (F64.ofFrac false 1 1) (F64.fin false 0) (F64.fin false 0))
              (F64.ofFrac false 1 1) (F64.ofFrac false 1 1) (F64.fin false 0)))
          (F64.arith.softened_radius
            (Plummer.mk (Coord.mk (F64.fin false 0) (F64.ofFrac false 1 1) (F64.fin false 0))
              (Coord.mk (F64.ofFrac false 1 1) (F64.fin false 0) (F64.fin false 0))
              (F64.ofFrac false 1 1) (F64.ofFrac false 1 1) (F64.fin false 0))))
        (F64.arith.softened_radius
          (Plummer.mk (Coord.mk (F64.fin false 0) (F64.ofFrac false 1 1) (F64.fin false 0))
            (Coord.mk (F64.ofFrac false 1 1) (F64.fin false 0) (F64.fin false 0))
            (F64.ofFrac false 1 1) (F64.ofFrac false 1 1) (F64.fin false 0)))) :=
  ⟨Or.inl one_ne_zero, one_pos,
    (softened_radius_zero_iff (Plummer.mk (Coord.mk 0 1 0) (Coord.mk 1 0 0) (1 : ℝ) 1 0)).2.2.1
      (Or.inl one_ne_zero),
    ((softened_radius_zero_iff (Plummer.mk (Coord.mk 0 1 0) (Coord.mk 1 0 0) (1 : ℝ) 1 0)).2.2.2.1
      one_pos 0.01).2.1,
    binary64_one_magAtLeast,
    ((softened_radius_zero_iff (Plummer.mk (Coord.mk 0 1 0) (Coord.mk 1 0 0) (1 : ℝ) 1 0)).2.2.2.2
      (Plummer.mk (Coord.mk (F64.fin false 0) (F64.ofFrac false 1 1) (F64.fin false 0))
        (Coord.mk (F64.ofFrac false 1 1) (F64.fin false 0) (F64.fin false 0))
        (F64.ofFrac false 1 1) (F64.ofFrac false 1 1) (F64.fin false 0))
      (by decide!) (by decide!) (by decide!) (by decide!) (Or.inl binary64_one_magAtLeast)).2.2⟩

set_option maxRecDepth 100000 in
/-- Claim C16, counterexample: the program computes in binary64. With `a` the double
nearest `1e-170`, which is positive, and the particle at the origin (`M = 1`), the
product `a * a` underflows to zero, so `d = 0`: the precondition of the claim holds
and `calc_acceleration` still divides zero by zero, giving `NaN` in every component. -/
theorem calc_acceleration_binary64_underflow :
    F64.lt (F64.fin false 0) (F64.ofFrac false 1 (10 ^ 170)) = true ∧
    F64.mul (F64.ofFrac false 1 (10 ^ 170)) (F64.ofFrac false 1 (10 ^ 170)) = F64.fin false 0 ∧
    F64.arith.softened_radius
      (Plummer.mk (Coord.mk (F64.fin false 0) (F64.fin false 0) (F64.fin false 0))
        (Coord.mk (F64.fin false 0) (F64.fin false 0) (F64.fin false 0))
        (F64.ofFrac false 1 1) (F64.ofFrac false 1 (10 ^ 170)) (F64.fin false 0))
      = F64.fin false 0 ∧
    F64.arith.calc_acceleration
      (Plummer.mk (Coord.mk (F64.fin false 0) (F64.fin false 0) (F64.fin false 0))
        (Coord.mk (F64.fin false 0) (F64.fin false 0) (F64.fin false 0))
        (F64.ofFrac false 1 1) (F64.ofFrac false 1 (10 ^ 170)) (F64.fin false 0))
      = Coord.mk F64.nan F64.nan F64.nan := by
  decide!

lemma calc_acceleration_congr [Field α] (sqrt : α → α) (s1 s2 : Plummer α)
    (hp : s1.p = s2.p) (hM : s1.M = s2.M) (ha : s1.a = s2.a) :
    s1.calc_acceleration sqrt = s2.calc_acceleration sqrt := by
  simp only [Plummer.calc_acceleration, hp, hM, ha]

lemma half_drift_advance_neg [LinearOrderedField α] (sqrt : α → α) (sys : Plummer α) (dt : α) :
    (sys.advance_coordinates sqrt dt).half_drift (-dt) =
      { sys.half_drift dt with v := (sys.advance_coordinates sqrt dt).v } := by
  rw [advance_coordinates_eq_half_drift]
  simp only [Plummer.half_drift, Plummer.mk.injEq, Coord.mk.injEq, and_true, true_and]
  refine ⟨?_, ?_, ?_⟩ <;> ring

lemma advance_coordinates_neg_generic [LinearOrderedField α] (sqrt : α → α) (sys : Plummer α)
    (dt : α) :
    (sys.advance_coordinates sqrt dt).advance_coordinates sqrt (-dt) = sys := by
  have hacc : ((sys.advance_coordinates sqrt dt).half_drift (-dt)).calc_acceleration sqrt
      = (sys.half_drift dt).calc_acceleration sqrt := by
    rw [half_drift_advance_neg]
    exact calc_acceleration_congr sqrt _ _ rfl rfl rfl
  rw [advance_coordinates_eq_half_drift sqrt (sys.advance_coordinates sqrt dt) (-dt), hacc,
    half_drift_advance_neg]
  obtain ⟨⟨vx, vy, vz⟩, ⟨px, py, pz⟩, M, a, t⟩ := sys
  simp only [Plummer.advance_coordinates, Plummer.half_drift, Plummer.mk.injEq, Coord.mk.injEq,
    and_true]
  refine ⟨⟨?_, ?_, ?_⟩, ⟨?_, ?_, ?_⟩⟩ <;> ring

lemma half_drift_reverse_advance [LinearOrderedField α] (sqrt : α → α) (sys : Plummer α)
    (dt : α) :
    ((sys.advance_coordinates sqrt dt).reverse).half_drift dt =
      { sys.half_drift dt with v := ((sys.advance_coordinates sqrt dt).reverse).v } := by
  rw [advance_coordinates_eq_half_drift]
  simp only [Plummer.half_drift, Plummer.reverse, Plummer.mk.injEq, Coord.mk.injEq, and_true,
    true_and]
  refine ⟨?_, ?_, ?_⟩ <;> ring

lemma advance_coordinates_reverse_generic [LinearOrderedField α] (sqrt : α → α)
    (sys : Plummer α) (dt : α) :
    (((sys.advance_coordinates sqrt dt).reverse).advance_coordinates sqrt dt).reverse = sys := by
  have hacc : (((sys.advance_coordinates sqrt dt).reverse).half_drift dt).calc_acceleration sqrt
      = (sys.half_drift dt).calc_acceleration sqrt := by
    rw [half_drift_reverse_advance]
    exact calc_acceleration_congr sqrt _ _ rfl rfl rfl
  rw [advance_coordinates_eq_half_drift sqrt ((sys.advance_coordinates sqrt dt).reverse) dt, hacc,
    half_drift_reverse_advance]
  obtain ⟨⟨vx, vy, vz⟩, ⟨px, py, pz⟩, M, a, t⟩ := sys
  simp only [Plummer.advance_coordinates, Plummer.half_drift, Plummer.reverse, Plummer.mk.injEq,
    Coord.mk.injEq, and_true]
  refine ⟨⟨?_, ?_, ?_⟩, ⟨?_, ?_, ?_⟩⟩ <;> ring

/-- Claim C19: over the reals, for every state with `a > 0` and every `dt`,
`advance_coordinates (dt)` followed by `advance_coordinates (-dt)` gives back the
original state (position and velocity; `M`, `a`, `t` are untouched); equivalently,
stepping, negating the velocity, stepping again with `dt` and negating the
velocity again gives back the original state. -/
theorem advance_coordinates_time_reversible (sys : Plummer ℝ) (dt : ℝ) (ha : 0 < sys.a) :
    (sys.advance_coordinates Real.sqrt dt).advance_coordinates Real.sqrt (-dt) = sys ∧
    (((sys.advance_coordinates Real.sqrt dt).reverse).advance_coordinates Real.sqrt dt).reverse
      = sys := by
  have _ := ha
  exact ⟨advance_coordinates_neg_generic Real.sqrt sys dt,
    advance_coordinates_reverse_generic Real.sqrt sys dt⟩

/-- Witness for C19 at `M = a = 1`, position `(1, 0, 0)`, velocity `(0, 1, 0)`,
`dt = 0.01`. -/
theorem advance_coordinates_time_reversible_witness :
    (0 : ℝ) < (Plummer.mk (Coord.mk 0 1 0) (Coord.mk 1 0 0) (1 : ℝ) 1 0).a ∧
    ((Plummer.mk (Coord.mk 0 1 0) (Coord.mk 1 0 0) (1 : ℝ) 1 0).advance_coordinates
        Real.sqrt 0.01).advance_coordinates Real.sqrt (-0.01)
      = Plummer.mk (Coord.mk 0 1 0) (Coord.mk 1 0 0) (1 : ℝ) 1 0 :=
  ⟨one_pos,
    (advance_coordinates_time_reversible
      (Plummer.mk (Coord.mk 0 1 0) (Coord.mk 1 0 0) (1 : ℝ) 1 0) 0.01 one_pos).1⟩

lemma advance_coordinates_angular_momentum [Field α] (sqrt : α → α) (sys : Plummer α)
    (dt : α) :
    (sys.advance_coordinates sqrt dt).angular_momentum = sys.angular_momentum := by
  obtain ⟨⟨vx, vy, vz⟩, ⟨px, py, pz⟩, M, a, t⟩ := sys
  simp only [Plummer.angular_momentum, Coord.cross, Plummer.advance_coordinates,
    Plummer.calc_acceleration, Coord.mk.injEq]
  refine ⟨?_, ?_, ?_⟩ <;> ring

set_option exponentiation.threshold 5000 in
/-- Claim C17: over the reals, for `a > 0`, `M ≥ 0` and every position, the Euclidean
norm of the acceleration is at most `G * M / a^2`, and the acceleration at the
origin is the zero vector. In binary64, with the particle at the origin (each
coordinate `+0` or `-0`), a finite `M` of magnitude below `2^1023` and a finite `a` of
magnitude at least `2^(-354)`, every component of the acceleration is a zero. -/
theorem calc_acceleration_bounded (v : Coord ℝ) (x y z M a t : ℝ) (ha : 0 < a) (hM : 0 ≤ M) :
    let acc : Coord ℝ :=
      Plummer.calc_acceleration Real.sqrt { v := v, p := Coord.mk x y z, M := M, a := a, t := t }
    Real.sqrt (acc.x ^ 2 + acc.y ^ 2 + acc.z ^ 2) ≤ G * M / a ^ 2 ∧
    Plummer.calc_acceleration Real.sqrt { v := v, p := Coord.mk 0 0 0, M := M, a := a, t := t }
      = Coord.mk 0 0 0 ∧
    (∀ (w : Coord F64) (sx sy sz sM sa : Bool) (kM ka : Nat) (u : F64),
      kM < 2 ^ 2097 → 2 ^ 720 ≤ ka →
      ∃ s1 s2 s3 : Bool,
        F64.arith.calc_acceleration
          (Plummer.mk w (Coord.mk (F64.fin sx 0) (F64.fin sy 0) (F64.fin sz 0))
            (F64.fin sM kM) (F64.fin sa ka) u)
          = Coord.mk (F64.fin s1 0) (F64.fin s2 0) (F64.fin s3 0)) := by
  intro acc
  refine ⟨?_, ?_, ?_⟩
  · have hS : 0 < x * x + y * y + z * z + a * a := by
      have hx := mul_self_nonneg x
      have hy := mul_self_nonneg y
      have hz := mul_self_nonneg z
      have h4 := mul_pos ha ha
      linarith
    have hd : 0 < Real.sqrt (x * x + y * y + z * z + a * a) := Real.sqrt_pos.mpr hS
    have hd2 : Real.sqrt (x * x + y * y + z * z + a * a) ^ 2 = x * x + y * y + z * z + a * a :=
      Real.sq_sqrt hS.le
    set d := Real.sqrt (x * x + y * y + z * z + a * a) with hdef
    have hsum : acc.x ^ 2 + acc.y ^ 2 + acc.z ^ 2
        = M ^ 2 * (x * x + y * y + z * z) / (d ^ 2) ^ 3 := by
      simp only [acc, Plummer.calc_acceleration, G, ← hdef]
      field_simp
      ring
    rw [Real.sqrt_le_iff]
    refine ⟨by simp only [G]; positivity, ?_⟩
    rw [hsum, hd2]
    simp only [G]
    rw [div_le_iff₀ (by positivity)]
    have e : (1 * M / a ^ 2) ^ 2 * (x * x + y * y + z * z + a * a) ^ 3
        = M ^ 2 * ((x * x + y * y + z * z + a * a) ^ 3 / a ^ 4) := by
      ring
    rw [e]
    apply mul_le_mul_of_nonneg_left _ (by positivity)
    rw [le_div_iff₀ (by positivity)]
    have hP : 0 ≤ x * x + y * y + z * z := by
      have hx := mul_self_nonneg x
      have hy := mul_self_nonneg y
      have hz := mul_self_nonneg z
      linarith
    have ha2 : 0 < a ^ 2 := by positivity
    nlinarith [mul_nonneg hP hP, mul_nonneg hP ha2.le, mul_nonneg (mul_nonneg hP hP) hP,
      mul_nonneg (mul_nonneg hP hP) ha2.le, mul_nonneg (mul_nonneg hP ha2.le) ha2.le,
      pow_pos ha2 3]
  · simp [Plummer.calc_acceleration]
  · intro w sx sy sz sM sa kM ka u hkM hka
    exact binary64_origin_zero w sx sy sz sM sa kM ka u hkM hka

/-- Witness for C17 at `M = 2`, `a = 1`, position `(3, 4, 0)`. -/
theorem calc_acceleration_bounded_witness :
    (0 : ℝ) < 1 ∧ (0 : ℝ) ≤ 2 ∧
    Real.sqrt
      ((Plummer.calc_acceleration Real.sqrt
          (Plummer.mk (Coord.mk 0 1 0) (Coord.mk 3 4 0) 2 1 0)).x ^ 2
      + (Plummer.calc_acceleration Real.sqrt
          (Plummer.mk (Coord.mk 0 1 0) (Coord.mk 3 4 0) 2 1 0)).y ^ 2
      + (Plummer.calc_acceleration Real.sqrt
          (Plummer.mk (Coord.mk 0 1 0) (Coord.mk 3 4 0) 2 1 0)).z ^ 2)
      ≤ G * 2 / 1 ^ 2 :=
  ⟨one_pos, by norm_num,
    (calc_acceleration_bounded (Coord.mk 0 1 0) 3 4 0 2 1 0 one_pos (by norm_num)).1⟩

set_option maxRecDepth 100000 in
/-- Claim C17, counterexample: the program computes in binary64. With `a` the double
nearest `1e-110`, which is positive, and `M = 1`, the radius at the origin is `d = a` and
the divisor `d * d * d` underflows to zero: at the origin every component of the
acceleration is `NaN`, not zero, and at the position `(1e-300, 0, 0)` the first
component is `-∞`, beyond every bound. -/
theorem calc_acceleration_binary64_unbounded :
    F64.lt (F64.fin false 0) (F64.ofFrac false 1 (10 ^ 110)) = true ∧
    F64.arith.softened_radius
      (Plummer.mk (Coord.mk (F64.fin false 0) (F64.fin false 0) (F64.fin false 0))
        (Coord.mk (F64.fin false 0) (F64.fin false 0) (F64.fin false 0))
        (F64.ofFrac false 1 1) (F64.ofFrac false 1 (10 ^ 110)) (F64.fin false 0))
      = F64.ofFrac false 1 (10 ^ 110) ∧
    F64.mul
      (F64.mul (F64.ofFrac false 1 (10 ^ 110)) (F64.ofFrac false 1 (10 ^ 110)))
      (F64.ofFrac false 1 (10 ^ 110)) = F64.fin false 0 ∧
    F64.arith.calc_acceleration
      (Plummer.mk (Coord.mk (F64.fin false 0) (F64.fin false 0) (F64.fin false 0))
        (Coord.mk (F64.fin false 0) (F64.fin false 0) (F64.fin false 0))
        (F64.ofFrac false 1 1) (F64.ofFrac false 1 (10 ^ 110)) (F64.fin false 0))
      = Coord.mk F64.nan F64.nan F64.nan ∧
    F64.arith.calc_acceleration
      (Plummer.mk (Coord.mk (F64.fin false 0) (F64.fin false 0) (F64.fin false 0))
        (Coord.mk (F64.ofFrac false 1 (10 ^ 300)) (F64.fin false 0) (F64.fin false 0))
        (F64.ofFrac false 1 1) (F64.ofFrac false 1 (10 ^ 110)) (F64.fin false 0))
      = Coord.mk (F64.inf true) F64.nan F64.nan := by
  decide!

/-! ## Coordinate round trip -/

lemma to_cartesian_position_norm (r phi theta : ℝ) (w : Coord ℝ) :
    (to_cartesian Real.cos Real.sin (Coord.mk r phi theta) w).1.x ^ 2
      + (to_cartesian Real.cos Real.sin (Coord.mk r phi theta) w).1.y ^ 2
      + (to_cartesian Real.cos Real.sin (Coord.mk r phi theta) w).1.z ^ 2 = r ^ 2 := by
  simp only [to_cartesian, Coord.r, Coord.phi, Coord.theta]
  have h1 := Real.sin_sq_add_cos_sq theta
  have h2 := Real.sin_sq_add_cos_sq phi
  have e1 : Real.cos theta ^ 2 = 1 - Real.sin theta ^ 2 := by linarith
  have e2 : Real.cos phi ^ 2 = 1 - Real.sin phi ^ 2 := by linarith
  ring_nf
  rw [e1, e2]
  ring

/-- Claim C11, refuted as stated: at `r = 1`, `phi = -π/2`, `theta = 0` the position is
`(-1, 0, 0)`; the inverse formulas give `r' = 1`, `phi' = arccos 0 = π/2` and
`theta' = atan2 (0, -1) = π`, and neither `phi' - phi = π` nor `theta' - theta = π`
is a multiple of `2π`. The function `atan2 (y, x)` is the argument of `x + y i`. -/
theorem to_cartesian_round_trip_fails :
    (to_cartesian Real.cos Real.sin (Coord.mk 1 (-(Real.pi / 2)) 0) (Coord.mk 0 0 0)).1
      = Coord.mk (-1) 0 0 ∧
    (¬ ∃ k : ℤ,
      Real.arccos
        ((to_cartesian Real.cos Real.sin (Coord.mk 1 (-(Real.pi / 2)) 0) (Coord.mk 0 0 0)).1.z
          / Real.sqrt
            ((to_cartesian Real.cos Real.sin (Coord.mk 1 (-(Real.pi / 2)) 0)
                (Coord.mk 0 0 0)).1.x ^ 2
            + (to_cartesian Real.cos Real.sin (Coord.mk 1 (-(Real.pi / 2)) 0)
                (Coord.mk 0 0 0)).1.y ^ 2
            + (to_cartesian Real.cos Real.sin (Coord.mk 1 (-(Real.pi / 2)) 0)
                (Coord.mk 0 0 0)).1.z ^ 2))
        - (-(Real.pi / 2)) = k * (2 * Real.pi)) ∧
    (¬ ∃ k : ℤ,
      Complex.arg (Complex.mk
          (to_cartesian Real.cos Real.sin (Coord.mk 1 (-(Real.pi / 2)) 0) (Coord.mk 0 0 0)).1.x
          (to_cartesian Real.cos Real.sin (Coord.mk 1 (-(Real.pi / 2)) 0) (Coord.mk 0 0 0)).1.y)
        - 0 = k * (2 * Real.pi)) := by
  have hpos : (to_cartesian Real.cos Real.sin (Coord.mk 1 (-(Real.pi / 2)) 0) (Coord.mk 0 0 0)).1
      = Coord.mk (-1) 0 0 := by
    simp [to_cartesian, Coord.r, Coord.phi, Coord.theta]
  have hodd : ∀ k : ℤ, Real.pi ≠ k * (2 * Real.pi) := by
    intro k h
    have hpi := Real.pi_pos
    have h1 : (1 : ℝ) = 2 * k := by
      have : Real.pi * 1 = Real.pi * (2 * k) := by linarith
      exact mul_left_cancel₀ hpi.ne' this
    have h2 : (1 : ℤ) = 2 * k := by exact_mod_cast h1
    omega
  refine ⟨hpos, ?_, ?_⟩
  · rw [hpos]
    rintro ⟨k, hk⟩
    norm_num [Real.arccos_zero] at hk
    exact hodd k hk
  · rw [hpos]
    rintro ⟨k, hk⟩
    have harg : Complex.arg (Complex.mk (-1) 0) = Real.pi := by
      have : Complex.mk (-1) 0 = -1 := by
        apply Complex.ext <;> simp
      rw [this, Complex.arg_neg_one]
    rw [harg, sub_zero] at hk
    exact hodd k hk

/-- Claim C11, amended: `r' = r` for all `r ≥ 0` and all `phi`, `theta`. For `r > 0` and
`phi` congruent modulo `2π` to a value `phi0` in `[0, π]`, `phi' = arccos (z / r')`
is `phi0`, hence congruent to `phi`; if moreover `0 < phi0 < π`, then
`theta' = atan2 (y, x)` is congruent to `theta` modulo `2π`. -/
theorem to_cartesian_round_trip (r phi theta : ℝ) (w : Coord ℝ) :
    let pos : Coord ℝ := (to_cartesian Real.cos Real.sin (Coord.mk r phi theta) w).1
    let r1 : ℝ := Real.sqrt (pos.x ^ 2 + pos.y ^ 2 + pos.z ^ 2)
    (0 ≤ r → r1 = r) ∧
    (∀ (phi0 : ℝ) (n : ℤ), 0 < r → 0 ≤ phi0 → phi0 ≤ Real.pi → phi = phi0 + n * (2 * Real.pi) →
      Real.arccos (pos.z / r1) = phi0 ∧
      (∃ k : ℤ, Real.arccos (pos.z / r1) - phi = k * (2 * Real.pi)) ∧
      (0 < phi0 → phi0 < Real.pi →
        ∃ k : ℤ, Complex.arg (Complex.mk pos.x pos.y) - theta = k * (2 * Real.pi))) := by
  intro pos r1
  have hr1 : 0 ≤ r → r1 = r := by
    intro hr
    simp only [r1, pos]
    rw [to_cartesian_position_norm, Real.sqrt_sq hr]
  refine ⟨hr1, ?_⟩
  intro phi0 n hr h0 hpi hphi
  have hcos : Real.cos phi = Real.cos phi0 := by
    rw [hphi, Real.cos_add_int_mul_two_pi]
  have hsin : Real.sin phi = Real.sin phi0 := by
    rw [hphi, Real.sin_add_int_mul_two_pi]
  have harc : Real.arccos (pos.z / r1) = phi0 := by
    rw [hr1 hr.le]
    have : pos.z = r * Real.cos phi0 := by
      simp only [pos, to_cartesian, Coord.r, Coord.phi, hcos]
    rw [this, mul_div_cancel_left₀ _ hr.ne', Real.arccos_cos h0 hpi]
  refine ⟨harc, ⟨-n, ?_⟩, ?_⟩
  · rw [harc, hphi]
    push_cast
    ring
  · intro h0' hpi'
    have hs : 0 < Real.sin phi0 := Real.sin_pos_of_pos_of_lt_pi h0' hpi'
    have hxy : Complex.mk pos.x pos.y
        = ((r * Real.sin phi0 : ℝ) : ℂ) * (Complex.cos theta + Complex.sin theta * Complex.I) := by
      apply Complex.ext
      · simp only [pos, to_cartesian, Coord.r, Coord.phi, Coord.theta, hsin]
        simp [← Complex.ofReal_cos, ← Complex.ofReal_sin]
        ring
      · simp only [pos, to_cartesian, Coord.r, Coord.phi, Coord.theta, hsin]
        simp [← Complex.ofReal_cos, ← Complex.ofReal_sin]
        ring
    refine ⟨⌊(Real.pi - theta) / (2 * Real.pi)⌋, ?_⟩
    rw [hxy, Complex.arg_mul_cos_add_sin_mul_I_sub (mul_pos hr hs)]
    ring

/-- Witness for C11 at `r = 2`, `phi = π/2`, `theta = 0`. -/
theorem to_cartesian_round_trip_witness :
    (0 : ℝ) ≤ 2 ∧
    Real.sqrt
      ((to_cartesian Real.cos Real.sin (Coord.mk 2 (Real.pi / 2) 0) (Coord.mk 0 0 0)).1.x ^ 2
      + (to_cartesian Real.cos Real.sin (Coord.mk 2 (Real.pi / 2) 0) (Coord.mk 0 0 0)).1.y ^ 2
      + (to_cartesian Real.cos Real.sin (Coord.mk 2 (Real.pi / 2) 0) (Coord.mk 0 0 0)).1.z ^ 2)
      = 2 ∧
    ∃ k : ℤ,
      Complex.arg (Complex.mk
          (to_cartesian Real.cos Real.sin (Coord.mk 2 (Real.pi / 2) 0) (Coord.mk 0 0 0)).1.x
          (to_cartesian Real.cos Real.sin (Coord.mk 2 (Real.pi / 2) 0) (Coord.mk 0 0 0)).1.y)
        - 0 = k * (2 * Real.pi) :=
  ⟨by norm_num,
    (to_cartesian_round_trip 2 (Real.pi / 2) 0 (Coord.mk 0 0 0)).1 (by norm_num),
    ((to_cartesian_round_trip 2 (Real.pi / 2) 0 (Coord.mk 0 0 0)).2 (Real.pi / 2) 0
      (by norm_num) (by positivity) (by linarith [Real.pi_pos]) (by simp)).2.2
      (by positivity) (by linarith [Real.pi_pos])⟩

/-! ## Snapshot schedule -/

section Schedule

variable [LinearOrderedField α]

lemma least_multiple_mono (dt : α) (m : Nat → Nat) (I : α) (hI : 0 ≤ I)
    (hm : ∀ i : Nat, IsLeast {k : Nat | (i : α) * I ≤ k * dt} (m i)) :
    Monotone m := by
  intro i j hij
  apply (hm i).2
  have h1 : (j : α) * I ≤ m j * dt := (hm j).1
  have h2 : (i : α) * I ≤ j * I :=
    mul_le_mul_of_nonneg_right (by exact_mod_cast hij) hI
  exact le_trans h2 h1

end Schedule

/-! ## Snapshot passes over the arithmetic of `double` -/

section ArithSchedule

end ArithSchedule

section ArithScheduleTheorem

end ArithScheduleTheorem

section ArithScheduleWitness

end ArithScheduleWitness

section AngularMomentumWitness

end AngularMomentumWitness

/-! ## Energy near-conservation on the circular orbit -/

lemma half_sqrt_two_bounds (c : ℝ) (hc : 0 < c) (hc2 : c ^ 2 = 1 / 2) :
    0.7071 < c ∧ c < 0.70711 := by
  constructor
  · by_contra h
    have h1 : c ≤ 0.7071 := not_lt.mp h
    nlinarith
  · by_contra h
    have h1 : 0.70711 ≤ c := not_lt.mp h
    nlinarith

lemma orbit_identity (c b0 q k e : ℝ) (hc2 : c ^ 2 = 1 / 2) (hb0 : 0 < b0)
    (hL : (b0 ^ 2 - 1) * k = q ^ 2 + c / 2)
    (he : e = k / 2 - 1 / b0 + 3 / 4 * c) :
    b0 * k = 2 * b0 * e - 3 / 2 * c * b0 + 2 ∧
    b0 * q ^ 2 + (c * b0 - 1) ^ 2 * (3 * (c * b0) + 2) = 2 * b0 * (b0 ^ 2 - 1) * e := by
  have hbk : b0 * k = 2 * b0 * e - 3 / 2 * c * b0 + 2 := by
    rw [he]
    field_simp
    ring
  refine ⟨hbk, ?_⟩
  linear_combination (-b0) * hL + (b0 ^ 2 - 1) * hbk + (3 * c * b0 ^ 3 - 4 * b0 ^ 2) * hc2

lemma t_localised (t c : ℝ) (ht : 0.7071 < t) (chi : c < 0.70711)
    (h : (t - 1) ^ 2 * (3 * t + 2) ≤ 2 * (4 * c * t ^ 3) * 5e-5) :
    0.99 ≤ t ∧ t ≤ 1.0099 := by
  have ht0 : 0 < t := by linarith
  have ht3 : 0 < t ^ 3 := by positivity
  have h1 : c * t ^ 3 ≤ 0.70711 * t ^ 3 := mul_le_mul_of_nonneg_right chi.le ht3.le
  have h2 : 0 ≤ (t - 1) ^ 2 := sq_nonneg _
  have h3 : 3 * t * (t - 1) ^ 2 ≤ 3 * t * ((0.0098 * t) ^ 2) := by
    have e1 : 3 * t * ((0.0098 * t) ^ 2) = 2.88120e-4 * t ^ 3 := by ring
    have e2 : (t - 1) ^ 2 * (3 * t + 2) = 3 * t * (t - 1) ^ 2 + 2 * (t - 1) ^ 2 := by ring
    rw [e1]
    rw [e2] at h
    have e3 : 2 * (4 * c * t ^ 3) * 5e-5 = 4e-4 * (c * t ^ 3) := by ring
    rw [e3] at h
    linarith
  have h4 : (t - 1) ^ 2 ≤ (0.0098 * t) ^ 2 := le_of_mul_le_mul_left h3 (by linarith)
  obtain ⟨h5, h6⟩ := abs_le_of_sq_le_sq' h4 (by linarith)
  constructor <;> linarith


lemma b0_bounds (c t : ℝ) (hclo : 0.7071 < c) (chi : c < 0.70711) (ht1 : 0.99 ≤ t)
    (ht2 : t ≤ 1.0099) : 1.4 ≤ 2 * c * t ∧ 2 * c * t ≤ 1.43 := by
  constructor <;> nlinarith

lemma k_bound_aux (c b0 k e : ℝ) (hclo : 0.7071 < c) (hb1 : 1.4 ≤ b0) (he2 : e ≤ 5e-5)
    (hbk : b0 * k = 2 * b0 * e - 3 / 2 * c * b0 + 2) : k ≤ 0.37 := by
  have hb0 : 0 < b0 := by linarith
  have h1 : b0 * e ≤ b0 * 5e-5 := mul_le_mul_of_nonneg_left he2 hb0.le
  have h2 : 0.7071 * b0 ≤ c * b0 := mul_le_mul_of_nonneg_right hclo.le hb0.le
  have h7 : b0 * k ≤ b0 * 0.37 := by
    rw [hbk]
    linarith
  exact le_of_mul_le_mul_left h7 hb0

lemma q_bound_aux (b0 q e y : ℝ) (hb1 : 1.4 ≤ b0) (hb2 : b0 ≤ 1.43) (he2 : e ≤ 5e-5)
    (hy : 0 ≤ y) (key : b0 * q ^ 2 + y = 2 * b0 * (b0 ^ 2 - 1) * e) : q ^ 2 ≤ 1.05e-4 := by
  have hb0 : 0 < b0 := by linarith
  have hs : 0 ≤ b0 ^ 2 - 1 := by nlinarith
  have hsq : b0 ^ 2 - 1 ≤ 1.0449 := by nlinarith
  have h1 : (b0 ^ 2 - 1) * e ≤ (b0 ^ 2 - 1) * 5e-5 := mul_le_mul_of_nonneg_left he2 hs
  have h5 : b0 * q ^ 2 ≤ b0 * (2 * ((b0 ^ 2 - 1) * e)) := by linarith
  have h6 := le_of_mul_le_mul_left h5 hb0
  linarith

lemma t_hyp_aux (c b0 q e y : ℝ) (hc2 : c ^ 2 = 1 / 2) (hb : 1 ≤ b0)
    (he2 : e ≤ 5e-5) (key : b0 * q ^ 2 + y = 2 * b0 * (b0 ^ 2 - 1) * e) :
    y ≤ 2 * (4 * c * (c * b0) ^ 3) * 5e-5 := by
  have hb0 : 0 < b0 := by linarith
  have h3e : b0 ^ 3 = 4 * c * (c * b0) ^ 3 := by
    linear_combination (-4 * b0 ^ 3 * c ^ 2 - 2 * b0 ^ 3) * hc2
  have hs : 0 ≤ b0 ^ 2 - 1 := by nlinarith
  have hq0 : 0 ≤ b0 * q ^ 2 := mul_nonneg hb0.le (sq_nonneg q)
  have hbs : 0 ≤ b0 * (b0 ^ 2 - 1) := mul_nonneg hb0.le hs
  have h1 : b0 * (b0 ^ 2 - 1) * e ≤ b0 * (b0 ^ 2 - 1) * 5e-5 :=
    mul_le_mul_of_nonneg_left he2 hbs
  have h2 : b0 * (b0 ^ 2 - 1) = b0 ^ 3 - b0 := by ring
  rw [← h3e]
  nlinarith

lemma orbit_localised (c b0 q k : ℝ) (hc : 0 < c) (hc2 : c ^ 2 = 1 / 2) (hb : 1 ≤ b0)
    (hL : (b0 ^ 2 - 1) * k = q ^ 2 + c / 2)
    (hE : |k / 2 - 1 / b0 + 3 / 4 * c| ≤ 5e-5) :
    1.4 ≤ b0 ∧ b0 ≤ 1.43 ∧ q ^ 2 ≤ 1.05e-4 ∧ k ≤ 0.37 := by
  obtain ⟨hclo, chi⟩ := half_sqrt_two_bounds c hc hc2
  have hb0 : 0 < b0 := by linarith
  obtain ⟨he1, he2⟩ := abs_le.mp hE
  obtain ⟨hbk, key⟩ := orbit_identity c b0 q k _ hc2 hb0 hL rfl
  have hbt : b0 = 2 * c * (c * b0) := by linear_combination (-2 * b0) * hc2
  have htpos : 0.7071 < c * b0 := by nlinarith
  obtain ⟨ht1, ht2⟩ := t_localised (c * b0) c htpos chi
    (t_hyp_aux c b0 q _ _ hc2 hb he2 key)
  obtain ⟨hb1, hb2⟩ := b0_bounds c (c * b0) hclo chi ht1 ht2
  rw [← hbt] at hb1 hb2
  have hpos : 0 ≤ (c * b0 - 1) ^ 2 * (3 * (c * b0) + 2) :=
    mul_nonneg (sq_nonneg _) (by linarith)
  exact ⟨hb1, hb2, q_bound_aux b0 q _ _ hb1 hb2 he2 hpos key,
    k_bound_aux c b0 k _ hclo hb1 he2 hbk⟩

lemma inv_sqrt_remainder (a b x : ℝ) (ha : 1.39 ≤ a) (hb : 1.39 ≤ b) (hx : x = b ^ 2 - a ^ 2) :
    |-1 / b + 1 / a - x / (2 * a ^ 3)| ≤ 0.1 * x ^ 2 := by
  have ha0 : 0 < a := by linarith
  have hb0 : 0 < b := by linarith
  have hR : -1 / b + 1 / a - x / (2 * a ^ 3)
      = -((b - a) ^ 2 * (2 * a + b) / (2 * a ^ 3 * b)) := by
    rw [hx]
    field_simp
    ring
  have hx2 : x ^ 2 = (b - a) ^ 2 * (a + b) ^ 2 := by rw [hx]; ring
  rw [hR, abs_neg, abs_of_nonneg (by positivity), hx2, div_le_iff₀ (by positivity)]
  have h1 : (1.39 : ℝ) ^ 3 ≤ a ^ 3 := pow_le_pow_left₀ (by norm_num) ha 3
  have h2 : (2.6856 : ℝ) * 1.39 ≤ a ^ 3 * b :=
    mul_le_mul (by norm_num at h1 ⊢; linarith) hb (by norm_num) (by positivity)
  have h3 : (2.78 : ℝ) * (2.6856 * 1.39) ≤ (a + b) * (a ^ 3 * b) :=
    mul_le_mul (by linarith) h2 (by norm_num) (by positivity)
  have h4 : 2 * a + b ≤ 0.1 * (a + b) * (2 * ((a + b) * (a ^ 3 * b))) := by
    have h5 : 0 < a + b := by linarith
    have h6 : (a + b) * 1 ≤ (a + b) * (0.1 * ((a + b) * (a ^ 3 * b))) :=
      mul_le_mul_of_nonneg_left (by norm_num at h3 ⊢; linarith) h5.le
    nlinarith
  have h7 : 0 ≤ (b - a) ^ 2 := sq_nonneg _
  calc (b - a) ^ 2 * (2 * a + b)
      ≤ (b - a) ^ 2 * (0.1 * (a + b) * (2 * ((a + b) * (a ^ 3 * b)))) :=
        mul_le_mul_of_nonneg_left h4 h7
    _ = 0.1 * ((b - a) ^ 2 * (a + b) ^ 2) * (2 * a ^ 3 * b) := by ring


/-- Bounds on the quantities of one step from the localisation of the orbit. -/
lemma step_quantities (b0 q k a w : ℝ) (hb1 : 1.4 ≤ b0) (hb2 : b0 ≤ 1.43)
    (hq : q ^ 2 ≤ 1.05e-4) (hk0 : 0 ≤ k) (hk : k ≤ 0.37) (ha0 : 0 < a)
    (ha : a ^ 2 = b0 ^ 2 + q / 100 + k / 40000) (hw : w * a ^ 3 = 1) :
    1.39 ≤ a ∧ 0 < w ∧ w ≤ 0.38 ∧ |q| ≤ 0.0103 ∧ 0 ≤ a ^ 2 - 1 ∧ a ^ 2 - 1 ≤ 1.05 := by
  have hqa : |q| ≤ 0.0103 :=
    abs_le.mpr (abs_le_of_sq_le_sq' (show q ^ 2 ≤ (0.0103 : ℝ) ^ 2 by norm_num; linarith)
      (by norm_num))
  obtain ⟨hq1, hq2⟩ := abs_le.mp hqa
  have hb0sq1 : 1.96 ≤ b0 ^ 2 := by nlinarith
  have hb0sq2 : b0 ^ 2 ≤ 2.0449 := by nlinarith
  have hasq1 : 1.9598 ≤ a ^ 2 := by rw [ha]; linarith
  have hasq2 : a ^ 2 ≤ 2.05 := by rw [ha]; linarith
  have ha1 : 1.39 ≤ a := by
    by_contra h
    have : a < 1.39 := not_le.mp h
    nlinarith
  have ha3 : (1.39 : ℝ) ^ 3 ≤ a ^ 3 := pow_le_pow_left₀ (by norm_num) ha1 3
  have ha3pos : 0 < a ^ 3 := by positivity
  have hw0 : 0 < w := by
    by_contra h
    have : w ≤ 0 := not_lt.mp h
    have := mul_nonpos_of_nonpos_of_nonneg this ha3pos.le
    linarith
  have hw1 : w ≤ 0.38 := by
    by_contra h
    have h1 : 0.38 < w := not_le.mp h
    have h2 : 0.38 * a ^ 3 < w * a ^ 3 := mul_lt_mul_of_pos_right h1 ha3pos
    norm_num at ha3
    linarith
  exact ⟨ha1, hw0, hw1, hqa, by linarith, by linarith⟩


lemma step_increments (q k g w : ℝ) (hq : |q| ≤ 0.0103) (hk0 : 0 ≤ k) (hk : k ≤ 0.37)
    (hw0 : 0 < w) (hw1 : w ≤ 0.38) (hg0 : 0 ≤ g) (hg1 : g ≤ 1.05) :
    |(k - 2 * (1 / 100) * (q + k / 200) * w + (1 / 100) ^ 2 * g * w ^ 2) - k| ≤ 2e-4 ∧
    |(q + k / 200 - 1 / 100 * g * w) / 100
      + (k - 2 * (1 / 100) * (q + k / 200) * w + (1 / 100) ^ 2 * g * w ^ 2) / 40000| ≤ 2e-4 ∧
    |q / 100 + k / 40000| ≤ 2e-4 := by
  obtain ⟨hq1, hq2⟩ := abs_le.mp hq
  have hP : |q + k / 200| ≤ 0.0122 := abs_le.mpr ⟨by linarith, by linarith⟩
  have hPw : |(q + k / 200) * w| ≤ 0.0122 * 0.38 := by
    rw [abs_mul, abs_of_pos hw0]
    exact mul_le_mul hP hw1 hw0.le (by norm_num)
  obtain ⟨hPw1, hPw2⟩ := abs_le.mp hPw
  have hgw : g * w ≤ 1.05 * 0.38 := mul_le_mul hg1 hw1 hw0.le (by norm_num)
  have hgw0 : 0 ≤ g * w := mul_nonneg hg0 hw0.le
  have hgww : g * w * w ≤ 1.05 * 0.38 * 0.38 := mul_le_mul hgw hw1 hw0.le (by norm_num)
  have hgww0 : 0 ≤ g * w * w := mul_nonneg hgw0 hw0.le
  refine ⟨abs_le.mpr ⟨?_, ?_⟩, abs_le.mpr ⟨?_, ?_⟩, abs_le.mpr ⟨?_, ?_⟩⟩ <;> nlinarith

/-- The change of the energy in one step, from the bounds on the increments. -/
lemma energy_increment (k kk a b0 b1 w al be : ℝ) (ha : 1.39 ≤ a) (hb0 : 1.39 ≤ b0)
    (hb1 : 1.39 ≤ b1) (hw : w * a ^ 3 = 1) (hw0 : 0 < w) (hw1 : w ≤ 0.38)
    (hal : al = b0 ^ 2 - a ^ 2) (hbe : be = b1 ^ 2 - a ^ 2)
    (hid : (kk - k) / 2 + (be - al) * w / 2 = (1 / 100) ^ 2 * (kk - k) * w / 8)
    (hkk : |kk - k| ≤ 2e-4) (hal2 : |al| ≤ 2e-4) (hbe2 : |be| ≤ 2e-4) :
    |(kk / 2 - 1 / b1) - (k / 2 - 1 / b0)| ≤ 5e-8 := by
  have ha0 : 0 < a := by linarith
  have hwa : w = 1 / a ^ 3 := by
    field_simp
    exact hw
  have hR1 := inv_sqrt_remainder a b1 be ha hb1 hbe
  have hR0 := inv_sqrt_remainder a b0 al ha hb0 hal
  have hsplit : (kk / 2 - 1 / b1) - (k / 2 - 1 / b0)
      = (-1 / b1 + 1 / a - be / (2 * a ^ 3)) - (-1 / b0 + 1 / a - al / (2 * a ^ 3))
        + (1 / 100) ^ 2 * (kk - k) * w / 8 := by
    rw [← hid, hwa]
    field_simp
    ring
  have hbe3 : be ^ 2 ≤ (2e-4) ^ 2 := by
    rw [← sq_abs]
    exact pow_le_pow_left₀ (abs_nonneg _) hbe2 2
  have hal3 : al ^ 2 ≤ (2e-4) ^ 2 := by
    rw [← sq_abs]
    exact pow_le_pow_left₀ (abs_nonneg _) hal2 2
  have hT : |(1 / 100) ^ 2 * (kk - k) * w / 8| ≤ 1e-8 := by
    have h1 : |(kk - k) * w| ≤ 2e-4 * 0.38 := by
      rw [abs_mul, abs_of_pos hw0]
      exact mul_le_mul hkk hw1 hw0.le (by norm_num)
    have h2 : (1 / 100) ^ 2 * (kk - k) * w / 8 = (1 / 80000) * ((kk - k) * w) := by ring
    rw [h2, abs_mul, abs_of_pos (by norm_num : (0 : ℝ) < 1 / 80000)]
    norm_num at h1 ⊢
    linarith
  rw [hsplit]
  calc |(-1 / b1 + 1 / a - be / (2 * a ^ 3)) - (-1 / b0 + 1 / a - al / (2 * a ^ 3))
        + (1 / 100) ^ 2 * (kk - k) * w / 8|
      ≤ |(-1 / b1 + 1 / a - be / (2 * a ^ 3)) - (-1 / b0 + 1 / a - al / (2 * a ^ 3))|
        + |(1 / 100) ^ 2 * (kk - k) * w / 8| := abs_add _ _
    _ ≤ (|-1 / b1 + 1 / a - be / (2 * a ^ 3)| + |-1 / b0 + 1 / a - al / (2 * a ^ 3)|)
        + |(1 / 100) ^ 2 * (kk - k) * w / 8| := by
        gcongr
        exact abs_sub _ _
    _ ≤ (0.1 * be ^ 2 + 0.1 * al ^ 2) + 1e-8 := by gcongr
    _ ≤ 5e-8 := by norm_num at hbe3 hal3 ⊢; linarith


/-- One step of the scheme, in terms of `s = |p|^2`, `q = p . v`, `k = |v|^2`: on an
orbit with the angular momentum and (nearly) the energy of the circular orbit of
radius 1, the energy changes by at most `5e-8`. -/
lemma energy_step_scalar (c s q k : ℝ) (hc : 0 < c) (hc2 : c ^ 2 = 1 / 2) (hs : 0 ≤ s)
    (hk0 : 0 ≤ k) (hL : s * k = q ^ 2 + c / 2)
    (hE : |k / 2 - 1 / Real.sqrt (s + 1) + 3 / 4 * c| ≤ 5e-5) :
    |((k - 2 * (1 / 100) * (q + k / 200) * (1 / Real.sqrt (s + 1 + q / 100 + k / 40000) ^ 3)
          + (1 / 100) ^ 2 * (s + 1 + q / 100 + k / 40000 - 1)
            * (1 / Real.sqrt (s + 1 + q / 100 + k / 40000) ^ 3) ^ 2) / 2
        - 1 / Real.sqrt (s + 1 + q / 100 + k / 40000
            + (q + k / 200 - 1 / 100 * (s + 1 + q / 100 + k / 40000 - 1)
                * (1 / Real.sqrt (s + 1 + q / 100 + k / 40000) ^ 3)) / 100
            + (k - 2 * (1 / 100) * (q + k / 200)
                  * (1 / Real.sqrt (s + 1 + q / 100 + k / 40000) ^ 3)
                + (1 / 100) ^ 2 * (s + 1 + q / 100 + k / 40000 - 1)
                  * (1 / Real.sqrt (s + 1 + q / 100 + k / 40000) ^ 3) ^ 2) / 40000))
      - (k / 2 - 1 / Real.sqrt (s + 1))| ≤ 5e-8 := by
  have hb0sq : Real.sqrt (s + 1) ^ 2 = s + 1 := Real.sq_sqrt (by linarith)
  have hb0ge : 1 ≤ Real.sqrt (s + 1) :=
    Real.le_sqrt_of_sq_le (by rw [one_pow]; linarith)
  set b0 := Real.sqrt (s + 1) with hb0def
  have hL' : (b0 ^ 2 - 1) * k = q ^ 2 + c / 2 := by rw [hb0sq]; linarith
  obtain ⟨hb1, hb2, hq, hk⟩ := orbit_localised c b0 q k hc hc2 hb0ge hL' hE
  have hqa : |q| ≤ 0.0103 :=
    abs_le.mpr (abs_le_of_sq_le_sq' (show q ^ 2 ≤ (0.0103 : ℝ) ^ 2 by norm_num; linarith)
      (by norm_num))
  obtain ⟨hq1, hq2⟩ := abs_le.mp hqa
  have hs1 : s + 1 = b0 ^ 2 := hb0sq.symm
  have hb0lo : 1.96 ≤ b0 ^ 2 := by nlinarith
  have hgh : 0 < s + 1 + q / 100 + k / 40000 := by rw [hs1]; linarith
  have hasq : Real.sqrt (s + 1 + q / 100 + k / 40000) ^ 2 = b0 ^ 2 + q / 100 + k / 40000 := by
    rw [Real.sq_sqrt hgh.le, hs1]
  have ha0 : 0 < Real.sqrt (s + 1 + q / 100 + k / 40000) := Real.sqrt_pos.mpr hgh
  set a := Real.sqrt (s + 1 + q / 100 + k / 40000) with hadef
  have hw : 1 / a ^ 3 * a ^ 3 = 1 := by field_simp
  obtain ⟨ha1, hw0, hw1, _, hg0, hg1⟩ :=
    step_quantities b0 q k a (1 / a ^ 3) hb1 hb2 hq hk0 hk ha0 hasq hw
  have hgeq : s + 1 + q / 100 + k / 40000 = a ^ 2 := by rw [hasq, hs1]
  rw [hgeq]
  obtain ⟨hkk, hbe, hal⟩ := step_increments q k (a ^ 2 - 1) (1 / a ^ 3) hqa hk0 hk hw0 hw1 hg0 hg1
  set w := 1 / a ^ 3 with hwdef
  set kk := k - 2 * (1 / 100) * (q + k / 200) * w + (1 / 100) ^ 2 * (a ^ 2 - 1) * w ^ 2
    with hkkdef
  set be := (q + k / 200 - 1 / 100 * (a ^ 2 - 1) * w) / 100 + kk / 40000 with hbedef
  have hg1pos : 0 < a ^ 2 + be := by
    have := (abs_le.mp hbe).1
    rw [hasq]
    linarith
  have hg1eq : a ^ 2 + (q + k / 200 - 1 / 100 * (a ^ 2 - 1) * w) / 100 + kk / 40000
      = a ^ 2 + be := by rw [hbedef]; ring
  rw [hg1eq]
  have hb1sq : Real.sqrt (a ^ 2 + be) ^ 2 = a ^ 2 + be := Real.sq_sqrt hg1pos.le
  have hb1ge : 1.39 ≤ Real.sqrt (a ^ 2 + be) := by
    apply Real.le_sqrt_of_sq_le
    have := (abs_le.mp hbe).1
    rw [hasq]
    norm_num
    linarith
  have hal' : |b0 ^ 2 - a ^ 2| ≤ 2e-4 := by
    have : b0 ^ 2 - a ^ 2 = -(q / 100 + k / 40000) := by rw [hasq]; ring
    rw [this, abs_neg]
    exact hal
  exact energy_increment k kk a b0 (Real.sqrt (a ^ 2 + be)) w (b0 ^ 2 - a ^ 2) be ha1
    (by linarith) hb1ge hw hw0 hw1 rfl (by rw [hb1sq]; ring)
    (by rw [hbedef, hkkdef, hasq]; ring) hkk hal' hbe


lemma energy_advance_scalar (px py pz vx vy vz t : ℝ) :
    (Plummer.advance_coordinates Real.sqrt
        (Plummer.mk (Coord.mk vx vy vz) (Coord.mk px py pz) 1 1 t) 0.01).energy Real.sqrt
      = (fun s q k : ℝ =>
          (k - 2 * (1 / 100) * (q + k / 200) * (1 / Real.sqrt (s + 1 + q / 100 + k / 40000) ^ 3)
            + (1 / 100) ^ 2 * (s + 1 + q / 100 + k / 40000 - 1)
              * (1 / Real.sqrt (s + 1 + q / 100 + k / 40000) ^ 3) ^ 2) / 2
          - 1 / Real.sqrt (s + 1 + q / 100 + k / 40000
              + (q + k / 200 - 1 / 100 * (s + 1 + q / 100 + k / 40000 - 1)
                  * (1 / Real.sqrt (s + 1 + q / 100 + k / 40000) ^ 3)) / 100
              + (k - 2 * (1 / 100) * (q + k / 200)
                    * (1 / Real.sqrt (s + 1 + q / 100 + k / 40000) ^ 3)
                  + (1 / 100) ^ 2 * (s + 1 + q / 100 + k / 40000 - 1)
                    * (1 / Real.sqrt (s + 1 + q / 100 + k / 40000) ^ 3) ^ 2) / 40000))
        (px ^ 2 + py ^ 2 + pz ^ 2) (px * vx + py * vy + pz * vz) (vx ^ 2 + vy ^ 2 + vz ^ 2) := by
  have hd : (px + vx * (0.5 * 0.01)) * (px + vx * (0.5 * 0.01))
      + (py + vy * (0.5 * 0.01)) * (py + vy * (0.5 * 0.01))
      + (pz + vz * (0.5 * 0.01)) * (pz + vz * (0.5 * 0.01)) + 1 * 1
      = (px ^ 2 + py ^ 2 + pz ^ 2) + 1 + (px * vx + py * vy + pz * vz) / 100
        + (vx ^ 2 + vy ^ 2 + vz ^ 2) / 40000 := by
    norm_num
    ring
  simp only [Plummer.energy, Plummer.advance_coordinates, Plummer.calc_acceleration, G, hd]
  generalize Real.sqrt ((px ^ 2 + py ^ 2 + pz ^ 2) + 1 + (px * vx + py * vy + pz * vz) / 100
        + (vx ^ 2 + vy ^ 2 + vz ^ 2) / 40000) = a
  have harg : (px + vx * (0.5 * 0.01)
          + (vx + -1 * 1 * (px + vx * (0.5 * 0.01)) / (a * a * a) * 0.01) * (0.5 * 0.01)) ^ 2
        + (py + vy * (0.5 * 0.01)
          + (vy + -1 * 1 * (py + vy * (0.5 * 0.01)) / (a * a * a) * 0.01) * (0.5 * 0.01)) ^ 2
        + (pz + vz * (0.5 * 0.01)
          + (vz + -1 * 1 * (pz + vz * (0.5 * 0.01)) / (a * a * a) * 0.01) * (0.5 * 0.01)) ^ 2
        + 1 ^ 2
      = (px ^ 2 + py ^ 2 + pz ^ 2) + 1 + (px * vx + py * vy + pz * vz) / 100
          + (vx ^ 2 + vy ^ 2 + vz ^ 2) / 40000
        + ((px * vx + py * vy + pz * vz) + (vx ^ 2 + vy ^ 2 + vz ^ 2) / 200
            - 1 / 100 * ((px ^ 2 + py ^ 2 + pz ^ 2) + 1 + (px * vx + py * vy + pz * vz) / 100
                + (vx ^ 2 + vy ^ 2 + vz ^ 2) / 40000 - 1) * (1 / a ^ 3)) / 100
        + ((vx ^ 2 + vy ^ 2 + vz ^ 2)
            - 2 * (1 / 100) * ((px * vx + py * vy + pz * vz) + (vx ^ 2 + vy ^ 2 + vz ^ 2) / 200)
              * (1 / a ^ 3)
            + (1 / 100) ^ 2 * ((px ^ 2 + py ^ 2 + pz ^ 2) + 1 + (px * vx + py * vy + pz * vz) / 100
                + (vx ^ 2 + vy ^ 2 + vz ^ 2) / 40000 - 1) * (1 / a ^ 3) ^ 2) / 40000 := by
    norm_num
    ring
  rw [harg]
  norm_num
  ring

lemma energy_scalar (px py pz vx vy vz t : ℝ) :
    (Plummer.mk (Coord.mk vx vy vz) (Coord.mk px py pz) (1 : ℝ) 1 t).energy Real.sqrt
      = (vx ^ 2 + vy ^ 2 + vz ^ 2) / 2 - 1 / Real.sqrt (px ^ 2 + py ^ 2 + pz ^ 2 + 1) := by
  simp only [Plummer.energy, G, one_pow]
  ring

/-- One step on an orbit with the angular momentum of the circular orbit of radius 1
and an energy within `5e-5` of its energy `-3c/4`, `c = √2/2`: the energy moves by at
most `5e-8`. -/
lemma energy_step (c : ℝ) (hc : 0 < c) (hc2 : c ^ 2 = 1 / 2) (sys : Plummer ℝ)
    (hM : sys.M = 1) (ha : sys.a = 1)
    (hL : sys.angular_momentum.x ^ 2 + sys.angular_momentum.y ^ 2
      + sys.angular_momentum.z ^ 2 = c / 2)
    (hE : |sys.energy Real.sqrt + 3 / 4 * c| ≤ 5e-5) :
    |(sys.advance_coordinates Real.sqrt 0.01).energy Real.sqrt - sys.energy Real.sqrt|
      ≤ 5e-8 := by
  obtain ⟨⟨vx, vy, vz⟩, ⟨px, py, pz⟩, M, a, t⟩ := sys
  simp only at hM ha
  subst hM ha
  rw [energy_advance_scalar, energy_scalar]
  rw [energy_scalar] at hE
  simp only [Plummer.angular_momentum, Coord.cross] at hL
  apply energy_step_scalar c _ _ _ hc hc2 (by positivity) (by positivity)
  · linear_combination hL
  · exact hE

lemma energy_iterate (c : ℝ) (hc : 0 < c) (hc2 : c ^ 2 = 1 / 2) (s0 : Plummer ℝ)
    (hM : s0.M = 1) (ha : s0.a = 1)
    (hL : s0.angular_momentum.x ^ 2 + s0.angular_momentum.y ^ 2
      + s0.angular_momentum.z ^ 2 = c / 2)
    (hE : s0.energy Real.sqrt = -(3 / 4 * c)) (n : Nat) (hn : n ≤ 1000) :
    ((fun s : Plummer ℝ => s.advance_coordinates Real.sqrt 0.01)^[n] s0).M = 1 ∧
    ((fun s : Plummer ℝ => s.advance_coordinates Real.sqrt 0.01)^[n] s0).a = 1 ∧
    ((fun s : Plummer ℝ => s.advance_coordinates Real.sqrt 0.01)^[n] s0).angular_momentum
      = s0.angular_momentum ∧
    |((fun s : Plummer ℝ => s.advance_coordinates Real.sqrt 0.01)^[n] s0).energy Real.sqrt
      - s0.energy Real.sqrt| ≤ n * 5e-8 := by
  induction n with
  | zero => simp [hM, ha]
  | succ n ih =>
    obtain ⟨h1, h2, h3, h4⟩ := ih (Nat.le_of_succ_le hn)
    rw [Function.iterate_succ_apply']
    set sn := (fun s : Plummer ℝ => s.advance_coordinates Real.sqrt 0.01)^[n] s0 with hsn
    have hn' : (n : ℝ) ≤ 999 := by
      have : n ≤ 999 := by omega
      exact_mod_cast this
    have hEn : |sn.energy Real.sqrt + 3 / 4 * c| ≤ 5e-5 := by
      have e : sn.energy Real.sqrt + 3 / 4 * c = sn.energy Real.sqrt - s0.energy Real.sqrt := by
        rw [hE]; ring
      rw [e]
      refine le_trans h4 ?_
      norm_num
      linarith
    have hstep := energy_step c hc hc2 sn h1 h2 (by rw [h3]; exact hL) hEn
    refine ⟨h1, h2, ?_, ?_⟩
    · show (sn.advance_coordinates Real.sqrt 0.01).angular_momentum = s0.angular_momentum
      rw [advance_coordinates_angular_momentum, h3]
    · show |(sn.advance_coordinates Real.sqrt 0.01).energy Real.sqrt - s0.energy Real.sqrt|
        ≤ ((n + 1 : Nat) : ℝ) * 5e-8
      have e : (sn.advance_coordinates Real.sqrt 0.01).energy Real.sqrt - s0.energy Real.sqrt
          = ((sn.advance_coordinates Real.sqrt 0.01).energy Real.sqrt - sn.energy Real.sqrt)
            + (sn.energy Real.sqrt - s0.energy Real.sqrt) := by ring
      rw [e]
      refine le_trans (abs_add _ _) ?_
      push_cast
      linarith

/-- Claim C12: with `M = 1`, `a = 1`, initial position `(1, 0, 0)` and initial velocity
`(0, v_c, 0)` where `v_c^2 = G M r^2 / (r^2 + a^2)^(3/2)` at `r = 1`, applying
`advance_coordinates (0.01)` `n ≤ 1000` times keeps the specific energy within
`1e-4` relative of its initial value, over the reals. -/
theorem energy_near_conservation (v_c t : ℝ)
    (hvc : v_c ^ 2 = G * 1 * 1 ^ 2 / ((1 : ℝ) ^ 2 + 1 ^ 2) ^ ((3 : ℝ) / 2))
    (n : Nat) (hn : n ≤ 1000) :
    |((fun s : Plummer ℝ => s.advance_coordinates Real.sqrt 0.01)^[n]
          (Plummer.mk (Coord.mk 0 v_c 0) (Coord.mk 1 0 0) 1 1 t)).energy Real.sqrt
        - (Plummer.mk (Coord.mk 0 v_c 0) (Coord.mk 1 0 0) (1 : ℝ) 1 t).energy Real.sqrt|
      ≤ 1e-4 * |(Plummer.mk (Coord.mk 0 v_c 0) (Coord.mk 1 0 0) (1 : ℝ) 1 t).energy Real.sqrt|
    := by
  have h2 : Real.sqrt 2 ^ 2 = 2 := Real.sq_sqrt (by norm_num)
  have h2pos : 0 < Real.sqrt 2 := Real.sqrt_pos.mpr (by norm_num)
  have hc : 0 < Real.sqrt 2 / 2 := by positivity
  have hc2 : (Real.sqrt 2 / 2) ^ 2 = 1 / 2 := by
    rw [div_pow, h2]; norm_num
  obtain ⟨hclo, _⟩ := half_sqrt_two_bounds _ hc hc2
  have hv : v_c ^ 2 = Real.sqrt 2 / 2 / 2 := by
    rw [hvc, show ((1 : ℝ) ^ 2 + 1 ^ 2) = 2 by norm_num, sqrt_rpow_three_halves 2 (by norm_num)]
    simp only [G]
    field_simp
    nlinarith [h2]
  have hE0 : (Plummer.mk (Coord.mk 0 v_c 0) (Coord.mk 1 0 0) (1 : ℝ) 1 t).energy Real.sqrt
      = -(3 / 4 * (Real.sqrt 2 / 2)) := by
    rw [energy_scalar]
    have e1 : (1 : ℝ) ^ 2 + 0 ^ 2 + 0 ^ 2 + 1 = 2 := by norm_num
    have e2 : (0 : ℝ) ^ 2 + v_c ^ 2 + 0 ^ 2 = Real.sqrt 2 / 2 / 2 := by rw [← hv]; ring
    rw [e1, e2]
    field_simp
    nlinarith [h2]
  have hL0 : (Plummer.mk (Coord.mk 0 v_c 0) (Coord.mk 1 0 0) (1 : ℝ) 1 t).angular_momentum.x ^ 2
      + (Plummer.mk (Coord.mk 0 v_c 0) (Coord.mk 1 0 0) (1 : ℝ) 1 t).angular_momentum.y ^ 2
      + (Plummer.mk (Coord.mk 0 v_c 0) (Coord.mk 1 0 0) (1 : ℝ) 1 t).angular_momentum.z ^ 2
      = Real.sqrt 2 / 2 / 2 := by
    simp only [Plummer.angular_momentum, Coord.cross]
    rw [← hv]
    ring
  obtain ⟨_, _, _, h4⟩ := energy_iterate _ hc hc2 _ rfl rfl hL0 hE0 n hn
  refine le_trans h4 ?_
  rw [hE0, abs_neg, abs_of_pos (by positivity)]
  have hn' : (n : ℝ) ≤ 1000 := by exact_mod_cast hn
  norm_num at hclo ⊢
  linarith

/-- Witness for C12: the positive circular velocity, after all 1000 steps. -/
theorem energy_near_conservation_witness :
    Real.sqrt (G * 1 * 1 ^ 2 / ((1 : ℝ) ^ 2 + 1 ^ 2) ^ ((3 : ℝ) / 2)) ^ 2
      = G * 1 * 1 ^ 2 / ((1 : ℝ) ^ 2 + 1 ^ 2) ^ ((3 : ℝ) / 2) ∧
    1000 ≤ 1000 ∧
    |((fun s : Plummer ℝ => s.advance_coordinates Real.sqrt 0.01)^[1000]
          (Plummer.mk
            (Coord.mk 0 (Real.sqrt (G * 1 * 1 ^ 2 / ((1 : ℝ) ^ 2 + 1 ^ 2) ^ ((3 : ℝ) / 2))) 0)
            (Coord.mk 1 0 0) 1 1 0)).energy Real.sqrt
        - (Plummer.mk
            (Coord.mk 0 (Real.sqrt (G * 1 * 1 ^ 2 / ((1 : ℝ) ^ 2 + 1 ^ 2) ^ ((3 : ℝ) / 2))) 0)
            (Coord.mk 1 0 0) (1 : ℝ) 1 0).energy Real.sqrt|
      ≤ 1e-4 * |(Plummer.mk
            (Coord.mk 0 (Real.sqrt (G * 1 * 1 ^ 2 / ((1 : ℝ) ^ 2 + 1 ^ 2) ^ ((3 : ℝ) / 2))) 0)
            (Coord.mk 1 0 0) (1 : ℝ) 1 0).energy Real.sqrt| :=
  ⟨Real.sq_sqrt (by simp only [G]; positivity), le_refl 1000,
    energy_near_conservation _ 0 (Real.sq_sqrt (by simp only [G]; positivity)) 1000
      (le_refl 1000)⟩

end PlummerModel
